/-
  Verification of the goschtalt configuration-compilation library.

  This file shallowly embeds the merge/compile pipeline of the repository:
  the natural-sort comparator (internal/natsort/float.go), the unified
  documentation tree (unified.go), the variable-expansion directives
  (expand.go), the file-group record collector, the Marshal entry point and
  the YAML scalar formatter (internal/encoding/yaml/formatter.go), together
  with spec-modelled stand-ins for the pieces of the repository that are not
  present under src/ (pkg/meta's merge and pkg/doc's object).

  Go machine integers are embedded as Int/Nat (no arithmetic here ever nears
  an overflow boundary), Go strings as Lean String (Go's byte-wise string
  comparison agrees with code-point comparison on valid UTF-8, which Lean's
  String order implements), nil-able values as Option, and fallible calls as
  Except.
-/
import Mathlib

namespace Goschtalt

/-- Go's byte-wise string less-than on character lists.  On the valid UTF-8
that Lean strings carry, byte-wise lexicographic order coincides with
code-point lexicographic order, embedded here structurally so that proofs
can evaluate it. -/
def strLtList : List Char → List Char → Bool
  | [], [] => false
  | [], _ :: _ => true
  | _ :: _, [] => false
  | c :: cs, c' :: cs' =>
    if c.toNat < c'.toNat then true
    else if c'.toNat < c.toNat then false
    else strLtList cs cs'

/-- Go's `a < b` on strings. -/
def strLt (a b : String) : Bool := strLtList a.toList b.toList

/-- Go's `a <= b` on strings (used by `sort.Strings`). -/
def strLe (a b : String) : Bool := !strLt b a

/-- `strings.Split` for the one separator the embedded code uses (`"\n"`),
with Go's semantics: splitting the empty string yields one empty field. -/
def splitLines : List Char → List (List Char)
  | [] => [[]]
  | c :: rest =>
    let r := splitLines rest
    if c = '\n' then [] :: r
    else
      match r with
      | h :: t => (c :: h) :: t
      | [] => [[c]]

/-- `strings.Split(s, "\n")`. -/
def splitOnNewline (s : String) : List String :=
  (splitLines s.toList).map String.mk

namespace natsort

/-- Digits of a decimal literal folded into a natural number. -/
def digitsToNat (l : List Char) : Nat :=
  l.foldl (fun a c => 10 * a + (c.toNat - 48)) 0

/-- Modelled from the spec: Go's `strconv.ParseFloat` as used by
`CompareFloat` (the Go standard library is outside the repository).  The
parsed value is kept as the exact rational
`±mantissa·10^(±exponentDigits − fractionLength)` instead of a rounded
float64; hexadecimal floats, underscores and the `inf`/`nan` special forms
are not modelled. -/
def ratOfParts (neg : Bool) (mant fracLen eDigits : Nat) (eneg : Bool) : ℚ :=
  let sm : Int := if neg then -(mant : Int) else (mant : Int)
  let e : Int := (if eneg then -(eDigits : Int) else (eDigits : Int)) - (fracLen : Int)
  if 0 ≤ e then mkRat (sm * ((10 ^ e.toNat : Nat) : Int)) 1
  else mkRat sm (10 ^ (-e).toNat)

/-- The decimal grammar of `strconv.ParseFloat` (see `ratOfParts` above for
the modelling note): optional sign, integer digits, optional fraction,
optional decimal exponent, at least one mantissa digit, nothing left over. -/
def parseFloat (s : String) : Option ℚ :=
  let readSign : List Char → Bool × List Char := fun cs =>
    match cs with
    | '+' :: r => (false, r)
    | '-' :: r => (true, r)
    | r => (false, r)
  let (neg, cs) := readSign s.toList
  let ip := cs.takeWhile Char.isDigit
  let cs := cs.dropWhile Char.isDigit
  let (fp, cs) :=
    match cs with
    | '.' :: r => (r.takeWhile Char.isDigit, r.dropWhile Char.isDigit)
    | r => ([], r)
  if ip.length + fp.length = 0 then none
  else
    let mant := digitsToNat (ip ++ fp)
    match cs with
    | [] => some (ratOfParts neg mant fp.length 0 false)
    | e :: r =>
      if e = 'e' ∨ e = 'E' then
        let (eneg, r) := readSign r
        let ed := r.takeWhile Char.isDigit
        let r := r.dropWhile Char.isDigit
        if ed.isEmpty ∨ ¬ r.isEmpty then none
        else some (ratOfParts neg mant fp.length (digitsToNat ed) eneg)
      else none

/-- internal/natsort/float.go `CompareFloat`: compare two strings,
attempting to parse both as numbers; numeric values compare numerically with
a plain string comparison breaking ties, a numeric string sorts before a
non-numeric one, and otherwise plain string comparison is used. -/
def CompareFloat (a b : String) : Bool :=
  match parseFloat a, parseFloat b with
  | some aNum, some bNum =>
      if aNum = bNum then strLt a b else decide (aNum < bNum)
  | some _, none => true
  | none, some _ => false
  | none, none => strLt a b

/-- The ordering stated by the spec sentence behind claim C6, written from
its words: keys that parse as numbers compare by numeric value with ties
broken by string comparison, a numeric key precedes a non-numeric key, and
all other keys compare as plain strings. -/
def specNatLt (a b : String) : Prop :=
  match parseFloat a, parseFloat b with
  | some x, some y => x < y ∨ (x = y ∧ strLt a b = true)
  | some _, none => True
  | none, some _ => False
  | none, none => strLt a b = true

/-- The non-strict companion of `CompareFloat`: `a` may stand before `b`
exactly when `b` is not strictly less than `a`.  `sort.Slice` with a strict
less-than produces an arrangement pairwise ordered by this relation. -/
def natLeB (a b : String) : Bool := !CompareFloat b a

/-- `natLeB` as a relation, for the sorting lemmas. -/
def natLeRel (a b : String) : Prop := natLeB a b = true

instance : DecidableRel natLeRel := fun _ _ => instDecidableEqBool _ _

end natsort

/-- Scalar leaf values.  The Go trees store `any`; the library's own
`toString` only special-cases strings, integer kinds and floats, so the
embedding restricts scalars to the closed variant actually exercised by the
pipeline (strings, integers, booleans). -/
inductive Value where
  | vStr (s : String)
  | vInt (n : Int)
  | vBool (b : Bool)
deriving DecidableEq

/-- Decimal rendering of an integer, as Go's `%d` verb produces. -/
def intToDec (n : Int) : String :=
  if n < 0 then "-" ++ Nat.repr n.natAbs else Nat.repr n.toNat

/-- unified.go `toString`: convert a value into a string suitable for
encoding — a string is returned as-is, integer kinds render with `%d`,
booleans fall through to the generic `%v` rendering. -/
def toString : Value → String
  | .vStr s => s
  | .vInt n => intToDec n
  | .vBool b => if b then "true" else "false"

/-- pkg/meta's `Object`, the compiled configuration tree.  Modelled from the
spec: the package itself is absent from src/, but its shape (a node carrying
an optional scalar value, array children and map children simultaneously as
fields) is fixed by the code in src/ that consumes it (`calcUnifiedInternal`
reads `.Value`, `.Array` and `.Map` off the same node).  The `Origins` field
is omitted: per the spec it is diagnostics-only and never drives merge or
rendering decisions, and no claim touches it. -/
inductive MetaObject where
  | mk (value : Option Value) (arr : List MetaObject) (map : List (String × MetaObject))

/-- The optional scalar value of a node (`Object.Value`). -/
def MetaObject.value : MetaObject → Option Value
  | .mk v _ _ => v

/-- The array children of a node (`Object.Array`). -/
def MetaObject.arr : MetaObject → List MetaObject
  | .mk _ a _ => a

/-- The map children of a node (`Object.Map`), as an association list with
unique keys (Go stores a `map[string]Object`). -/
def MetaObject.map : MetaObject → List (String × MetaObject)
  | .mk _ _ m => m

/-- pkg/doc's `Object`.  Modelled from the spec: the package is absent from
src/; the fields below are the ones src/ reads (`Type`, `Doc`, `Deprecated`,
`Children`).  `Type` is a string tag (the spec's root / struct / map / array
/ scalar kinds); the field is named `typ` because `Type` is reserved in
Lean. -/
inductive DocObject where
  | mk (typ : String) (Doc : String) (Deprecated : Bool)
      (Children : List (String × DocObject))

/-- The `Type` tag of a documentation object. -/
def DocObject.typ : DocObject → String
  | .mk t _ _ _ => t

/-- The free-text documentation of a documentation object. -/
def DocObject.Doc : DocObject → String
  | .mk _ d _ _ => d

/-- The deprecation flag of a documentation object. -/
def DocObject.Deprecated : DocObject → Bool
  | .mk _ _ dep _ => dep

/-- The named children of a documentation object. -/
def DocObject.Children : DocObject → List (String × DocObject)
  | .mk _ _ _ c => c

/-- Modelled from the spec: the `doc.TYPE_ROOT` type-tag constant (pkg/doc
is absent from src/). -/
def TYPE_ROOT : String := "root"

/-- Modelled from the spec: the `doc.TYPE_ARRAY` type-tag constant. -/
def TYPE_ARRAY : String := "array"

/-- Modelled from the spec: the reserved `doc.NAME_ARRAY` child name used
for array-element documentation. -/
def NAME_ARRAY : String := "<array>"

/-- Modelled from the spec: the reserved `doc.NAME_EMBEDDED` child name used
for embedded-struct documentation. -/
def NAME_EMBEDDED : String := "<embedded>"

/-- Modelled from the spec: the reserved `doc.NAME_MAP_KEY` child name used
for map-key documentation. -/
def NAME_MAP_KEY : String := "<map_key>"

/-- Modelled from the spec: the reserved `doc.NAME_MAP_VALUE` child name
used for map-value documentation. -/
def NAME_MAP_VALUE : String := "<map_value>"

/-- Modelled from the spec: `doc.Object.TypeString` (absent from src/)
renders the type tag.  The repository's unit tests pin the scalar renderings
(`TYPE_STRING` renders `<string>`, `TYPE_INT` renders `<int>`, …) and
unified.go's `Headers` compares the result against the raw `TYPE_ROOT`
constant to drop the type line for root objects, so the root tag renders as
itself and every other tag renders angle-bracketed. -/
def DocObject.TypeString (d : DocObject) : String :=
  if d.typ = TYPE_ROOT then TYPE_ROOT else "<" ++ d.typ ++ ">"

/-- Generic association-list lookup (a Go map access `m[k]`). -/
def lookupA {α : Type} (k : String) : List (String × α) → Option α
  | [] => none
  | (k', v) :: rest => if k' = k then some v else lookupA k rest

/-- unified.go's `unified` structure: doc metadata, key, live value, preset
value, indent depth, array flag and the child map (embedded as an
association list with unique keys). -/
inductive Unified where
  | mk (doc : Option DocObject) (key : Option String) (value : Option Value)
      (preset : Option Value) (indent : Int) (array : Bool)
      (children : List (String × Unified))

/-- The documentation attached to a unified node. -/
def Unified.doc : Unified → Option DocObject
  | .mk d _ _ _ _ _ _ => d

/-- The key of a unified node. -/
def Unified.key : Unified → Option String
  | .mk _ k _ _ _ _ _ => k

/-- The live value of a unified node. -/
def Unified.value : Unified → Option Value
  | .mk _ _ v _ _ _ _ => v

/-- The preset (default) value of a unified node. -/
def Unified.preset : Unified → Option Value
  | .mk _ _ _ p _ _ _ => p

/-- The indent depth of a unified node. -/
def Unified.indent : Unified → Int
  | .mk _ _ _ _ i _ _ => i

/-- The array flag of a unified node. -/
def Unified.array : Unified → Bool
  | .mk _ _ _ _ _ a _ => a

/-- The children of a unified node. -/
def Unified.children : Unified → List (String × Unified)
  | .mk _ _ _ _ _ _ c => c

/-- unified.go's `noticeDeprecated` constant. -/
def noticeDeprecated : String := "!!! DEPRECATED !!!"

/-- unified.go `unified.Headers`: header lines for a unified node — doc
lines, then the `type:` line (dropped for root types), then the `default:`
line when a preset is present, the whole block wrapped in deprecation
banners when the documentation is flagged deprecated. -/
def Unified.Headers (u : Unified) : List String :=
  let (rv, deprecated) :=
    match u.doc with
    | none => ([], false)
    | some d =>
      let rv := splitOnNewline d.Doc
      let typ := d.TypeString
      let typs := splitOnNewline typ
      let typs :=
        match typs with
        | [] => []
        | t0 :: rest => ("type: " ++ t0) :: rest
      let typs := if typ = TYPE_ROOT then typs.tail else typs
      (rv ++ typs, d.Deprecated)
  let rv :=
    match u.preset with
    | none => rv
    | some p => rv ++ ["default: " ++ toString p]
  if deprecated then [noticeDeprecated] ++ rv ++ [noticeDeprecated] else rv

/-- unified.go `unified.childKeys`: the child keys in natural-sort order.
Go collects the map's keys in arbitrary iteration order and sorts them with
`sort.Slice` using `natsort.CompareFloat` as the less-than; because that
comparator strictly orders every pair of distinct keys, the sorted result is
the unique arrangement in which no later key compares less than an earlier
one, embedded here as a merge sort under the complemented-converse
comparator. -/
def Unified.childKeys (u : Unified) : List String :=
  (u.children.map Prod.fst).insertionSort natsort.natLeRel

/-- unified.go `unified.Children`: the child nodes, in `childKeys` order. -/
def Unified.Children (u : Unified) : List Unified :=
  u.childKeys.filterMap (fun k => lookupA k u.children)

/-- Spec side (claim C5): the deprecation banner, present only when the
attached documentation is flagged deprecated. -/
def headerBanner (u : Unified) : List String :=
  match u.doc with
  | some d => if d.Deprecated then [noticeDeprecated] else []
  | none => []

/-- Spec side (claim C5): the documentation text lines, present only when a
documentation object is attached. -/
def headerDocLines (u : Unified) : List String :=
  match u.doc with
  | some d => splitOnNewline d.Doc
  | none => []

/-- Spec side (claim C5): the `type:` line(s), present only when a
documentation object is attached and its type does not render as the root
type. -/
def headerTypeLines (u : Unified) : List String :=
  match u.doc with
  | some d =>
    if d.TypeString = TYPE_ROOT then []
    else
      match splitOnNewline d.TypeString with
      | [] => []
      | t0 :: rest => ("type: " ++ t0) :: rest
  | none => []

/-- Spec side (claim C5): the `default:` line, present only when a preset
value was supplied. -/
def headerDefaultLines (u : Unified) : List String :=
  match u.preset with
  | some p => ["default: " ++ toString p]
  | none => []

/-- Whether a header line is a `type:` line (used to state that a rendering
contains no type line). -/
def isTypeLine (l : String) : Bool :=
  match l.toList with
  | 't' :: 'y' :: 'p' :: 'e' :: ':' :: ' ' :: _ => true
  | _ => false

/-- Errors raised while building the unified documentation tree.  The first
three correspond to the `errors.New` messages of unified.go; `outOfFuel` is
an artifact of the embedding only (the Go recursion terminates structurally
over the two input trees, so any fuel at least their combined depth is never
exhausted). -/
inductive CalcErr where
  | conflictingDefinitions
  | arrayKeyInMap
  | embeddedKeyInMap
  | outOfFuel
deriving DecidableEq

/-- unified.go `determineNames`: the union of documentation child keys and
compiled map keys, deduplicated and sorted lexically (`sort.Strings`). -/
def determineNames (d : Option DocObject) (compiled : Option MetaObject) : List String :=
  let docKeys : List String :=
    match d with
    | some dd => dd.Children.map Prod.fst
    | none => []
  let compiledKeys : List String :=
    match compiled with
    | some c => c.map.map Prod.fst
    | none => []
  ((docKeys ++ compiledKeys).dedup).insertionSort (fun a b => strLe a b = true)

/-- The type of the recursive continuation used by the unification helpers:
in Go these helpers call `calcUnifiedInternal` back directly; the embedding
threads that call in as a parameter so that the shared fuel discharges
termination structurally. -/
def CalcRecurse : Type :=
  Option String → Int → Option DocObject → Option MetaObject → Bool →
    Except CalcErr Unified

/-- The element loop of `calcUnifiedArray` (the `for i, next := range
compiled.Array` loop): index the elements numerically and clear the
per-element documentation after the first element. -/
def calcUnifiedArrayLoop (recurse : CalcRecurse) (i : Nat)
    (nextDoc : Option DocObject) (indent : Int) (withOrigins : Bool) :
    (elems : List MetaObject) → Except CalcErr (List (String × Unified))
  | [] => .ok []
  | next :: rest =>
    match recurse none (indent + 1) nextDoc (some next) withOrigins with
    | .error e => .error e
    | .ok got =>
      match calcUnifiedArrayLoop recurse (i + 1) none indent withOrigins rest with
      | .error e => .error e
      | .ok tail => .ok ((Nat.repr i, got) :: tail)

/-- unified.go `calcUnifiedArray`: sets the array flag, picks the reserved
`NAME_ARRAY` child documentation if present (falling back to the node's own
documentation), and recurses into each compiled array element under its
numeric index, attaching the documentation only to the first element. -/
def calcUnifiedArray (recurse : CalcRecurse) (u : Unified) (indent : Int)
    (compiled : Option MetaObject) (withOrigins : Bool) : Except CalcErr Unified :=
  let nextDoc : Option DocObject :=
    match u.doc with
    | some dd =>
      match lookupA NAME_ARRAY dd.Children with
      | some tmp => some tmp
      | none => some dd
    | none => none
  let elems : List MetaObject :=
    match compiled with
    | some c => c.arr
    | none => []
  match calcUnifiedArrayLoop recurse 0 nextDoc indent withOrigins elems with
  | .error e => .error e
  | .ok children => .ok (.mk u.doc u.key u.value u.preset u.indent true children)

/-- The name loop of `calcUnifiedMap` (the `for _, key := range names`
loop). -/
def calcUnifiedMapLoop (recurse : CalcRecurse) (d : Option DocObject) (indent : Int)
    (compiled : Option MetaObject) (withOrigins : Bool) :
    (names : List String) → Except CalcErr (List (String × Unified))
  | [] => .ok []
  | key :: rest =>
    if key = NAME_ARRAY then .error .arrayKeyInMap
    else if key = NAME_EMBEDDED then .error .embeddedKeyInMap
    else if key = NAME_MAP_KEY ∨ key = NAME_MAP_VALUE then
      calcUnifiedMapLoop recurse d indent compiled withOrigins rest
    else
      let nextDoc : Option DocObject :=
        match d with
        | some dd => lookupA key dd.Children
        | none => none
      let nextCompiled : Option MetaObject :=
        match compiled with
        | some c => lookupA key c.map
        | none => none
      match recurse (some key) (indent + 1) nextDoc nextCompiled withOrigins with
      | .error e => .error e
      | .ok got =>
        match calcUnifiedMapLoop recurse d indent compiled withOrigins rest with
        | .error e => .error e
        | .ok tail => .ok ((key, got) :: tail)

/-- unified.go `calcUnifiedMap`: recurse into every name of
`determineNames`, rejecting the reserved array/embedded names and skipping
the reserved map-key/map-value pair. -/
def calcUnifiedMap (recurse : CalcRecurse) (u : Unified) (indent : Int)
    (compiled : Option MetaObject) (withOrigins : Bool) : Except CalcErr Unified :=
  match calcUnifiedMapLoop recurse u.doc indent compiled withOrigins
      (determineNames u.doc compiled) with
  | .error e => .error e
  | .ok children => .ok (.mk u.doc u.key u.value u.preset u.indent u.array children)

/-- unified.go `calcUnifiedInternal`: recursively zip a documentation object
against a compiled tree node.  Leaf nodes take the compiled scalar value; a
node with both array-shaped data (array-typed documentation or compiled
array children) and map-shaped data (non-array documentation children or
compiled map children) is a conflicting definition; otherwise array handling
or map handling recurses.  The explicit fuel only discharges termination
(the Go recursion terminates structurally over the two input trees, so any
fuel at least their combined depth is never exhausted). -/
def calcUnifiedInternal : (fuel : Nat) → Option String → Int →
    Option DocObject → Option MetaObject → Bool → Except CalcErr Unified
  | 0, _, _, _, _, _ => .error .outOfFuel
  | fuel + 1, name, indent, d, compiled, withOrigins =>
    let u : Unified := .mk d name none none indent false []
    let docArray : Bool :=
      match d with
      | some dd => dd.typ == TYPE_ARRAY
      | none => false
    let docMapLen : Nat :=
      match d with
      | some dd => if dd.typ == TYPE_ARRAY then 0 else dd.Children.length
      | none => 0
    let arrayLen : Nat :=
      match compiled with
      | some c => max 0 c.arr.length
      | none => 0
    let mapLen : Nat :=
      match compiled with
      | some c => max docMapLen c.map.length
      | none => docMapLen
    if arrayLen + mapLen = 0 then
      .ok (.mk d name (compiled.bind MetaObject.value) none indent false [])
    else if (docArray = true ∧ 0 < mapLen) ∨ (0 < mapLen ∧ 0 < arrayLen) then
      .error .conflictingDefinitions
    else if docArray = true ∨ 0 < arrayLen then
      calcUnifiedArray (calcUnifiedInternal fuel) u indent compiled withOrigins
    else
      calcUnifiedMap (calcUnifiedInternal fuel) u indent compiled withOrigins

/-- unified.go `calcUnified`: the entry point, starting at indent `-1` with
no key. -/
def calcUnified (fuel : Nat) (d : Option DocObject) (compiled : Option MetaObject)
    (withOrigins : Bool) : Except CalcErr Unified :=
  calcUnifiedInternal fuel none (-1) d compiled withOrigins


/-- An expansion provider: the `Expander` interface of expand.go.  Go's
`Expand(string) (string, bool)` — a replacement plus a found flag — is
embedded as an `Option`. -/
def Expander : Type := String → Option String

/-- expand.go's `expand` struct.  The cosmetic `text` field (a printed
description of the option, built with the internal print package) is
omitted; the nilable `expander` interface field is an `Option`; the Go field
`end` is named `end_` because `end` is reserved in Lean. -/
structure expand where
  origin : String
  start : String
  end_ : String
  expander : Option Expander
  maximum : Int

/-- The three built-in `ExpandOption`s of expand.go. -/
inductive ExpandOption where
  | WithOrigin (origin : String)
  | WithDelimiters (start stop : String)
  | WithMaximum (maximum : Int)

/-- Whether an option is the `WithDelimiters` option. -/
def ExpandOption.isDelimiters : ExpandOption → Bool
  | .WithDelimiters _ _ => true
  | _ => false

/-- expand.go `expandApply` of each built-in option: every one updates the
struct and returns a nil error in Go, so the embedding is total. -/
def ExpandOption.expandApply : ExpandOption → expand → expand
  | .WithOrigin o, exp => { exp with origin := o }
  | .WithDelimiters s e, exp => { exp with start := s, end_ := e }
  | .WithMaximum m, exp => { exp with maximum := m }

/-- expand.go `Expand`: build a directive with the default `${` / `}`
delimiters, no origin, zero maximum, and the given (possibly nil) provider,
then apply the options in order. -/
def Expand (expander : Option Expander) (opts : List ExpandOption) : expand :=
  opts.foldl (fun e o => o.expandApply e)
    { origin := "", start := "$\x7b", end_ := "\x7d", expander := expander, maximum := 0 }

/-- expand.go `ExpandEnv`: like `Expand` but with origin `environment` and
the environment lookup as provider (the process environment is a
parameter). -/
def ExpandEnv (env : Expander) (opts : List ExpandOption) : expand :=
  opts.foldl (fun e o => o.expandApply e)
    { origin := "environment", start := "$\x7b", end_ := "\x7d", expander := some env,
      maximum := 0 }

/-- The slice of registered expansion directives inside the options struct
(the only field of `options` the expansion claims touch). -/
structure options where
  expansions : List expand

/-- expand.go `expand.apply`: normalize the maximum (any value below 1
becomes 10000), register the directive only when its provider is non-nil,
and always return a nil error. -/
def expand.apply (exp : expand) (opts : options) : Except String options :=
  let exp := if exp.maximum < 1 then { exp with maximum := 10000 } else exp
  if exp.expander.isSome then
    .ok { opts with expansions := opts.expansions ++ [exp] }
  else
    .ok opts

/-- `some (cs.drop p.length)` when `p` prefixes `cs`, else `none`. -/
def splitPrefix : List Char → List Char → Option (List Char)
  | [], cs => some cs
  | _ :: _, [] => none
  | p :: ps, c :: cs => if p = c then splitPrefix ps cs else none

/-- Split at the first occurrence of the delimiter `d`:
`findDelim d cs = some (before, after)` with `cs = before ++ d ++ after`. -/
def findDelim (d : List Char) : List Char → Option (List Char × List Char)
  | [] => if d.isEmpty then some ([], []) else none
  | c :: rest =>
    match splitPrefix d (c :: rest) with
    | some after => some ([], after)
    | none =>
      match findDelim d rest with
      | some (before, after) => some (c :: before, after)
      | none => none

/-- Modelled from the spec: one substitution sweep over a scalar string —
scan for `start…end` delimiter pairs, look the inner text up via the
provider, substitute when found and leave the placeholder untouched when
not; an unterminated placeholder is left as-is.  A substituted value is not
rescanned within the sweep (the directive loop re-runs whole passes
instead).  The fuel only discharges termination: the caller passes the
string length plus one, which a sweep can never exhaust. -/
def expandScan (startD endD : List Char) (f : Expander) :
    Nat → List Char → List Char × Bool
  | 0, cs => (cs, false)
  | _ + 1, [] => ([], false)
  | fuel + 1, c :: rest =>
    match splitPrefix startD (c :: rest) with
    | some afterStart =>
      match findDelim endD afterStart with
      | some (inner, after) =>
        match f (String.mk inner) with
        | some r => (r.toList ++ (expandScan startD endD f fuel after).1, true)
        | none =>
          (startD ++ inner ++ endD ++ (expandScan startD endD f fuel after).1,
           (expandScan startD endD f fuel after).2)
      | none => (c :: rest, false)
    | none =>
      (c :: (expandScan startD endD f fuel rest).1,
       (expandScan startD endD f fuel rest).2)

/-- One sweep over an optional scalar value: only string scalars are
expanded. -/
def toExpandedValue (startD endD : List Char) (f : Expander) :
    Option Value → Option Value × Bool
  | some (.vStr s) =>
    (some (.vStr (String.mk (expandScan startD endD f (s.length + 1) s.toList).1)),
     (expandScan startD endD f (s.length + 1) s.toList).2)
  | other => (other, false)

mutual

/-- Modelled from the spec: `meta.Object.ToExpanded` (pkg/meta is absent
from src/) walks every scalar leaf of the tree and applies one substitution
sweep, reporting whether anything changed. -/
def toExpandedGo (startD endD : List Char) (f : Expander) : MetaObject → MetaObject × Bool
  | .mk v arr mp =>
    (.mk (toExpandedValue startD endD f v).1 (toExpandedList startD endD f arr).1
        (toExpandedMap startD endD f mp).1,
     (toExpandedValue startD endD f v).2 || (toExpandedList startD endD f arr).2
       || (toExpandedMap startD endD f mp).2)

/-- Sweep over array children. -/
def toExpandedList (startD endD : List Char) (f : Expander) :
    List MetaObject → List MetaObject × Bool
  | [] => ([], false)
  | t :: rest =>
    ((toExpandedGo startD endD f t).1 :: (toExpandedList startD endD f rest).1,
     (toExpandedGo startD endD f t).2 || (toExpandedList startD endD f rest).2)

/-- Sweep over map children. -/
def toExpandedMap (startD endD : List Char) (f : Expander) :
    List (String × MetaObject) → List (String × MetaObject) × Bool
  | [] => ([], false)
  | (k, t) :: rest =>
    ((k, (toExpandedGo startD endD f t).1) :: (toExpandedMap startD endD f rest).1,
     (toExpandedGo startD endD f t).2 || (toExpandedMap startD endD f rest).2)

end

/-- Modelled from the spec: the `ToExpanded` method as `expandTree` calls it.
The per-value `maximum` is unused because a sweep substitutes each
occurrence exactly once, and the `origin` annotation is not modelled
(origins are diagnostics-only); the sweep itself cannot fail, so the Go
error return is always nil here. -/
def MetaObject.ToExpanded (_maximum : Int) (_origin start end_ : String)
    (f : Expander) (t : MetaObject) : MetaObject × Bool :=
  toExpandedGo start.toList end_.toList f t

/-- The inner directive loop of expand.go `expandTree` (`for _, exp := range
expansions`), carrying the pass's `changed` flag: every directive of the
list runs, in declaration order, against the output of the previous one. -/
def runPassAux : List expand → MetaObject → Bool → MetaObject × Bool
  | [], t, changed => (t, changed)
  | exp :: rest, t, changed =>
    match exp.expander with
    | some f =>
      runPassAux rest (t.ToExpanded exp.maximum exp.origin exp.start exp.end_ f).1
        (changed || (t.ToExpanded exp.maximum exp.origin exp.start exp.end_ f).2)
    | none =>
      -- Unreachable in the pipeline: `expand.apply` never registers a
      -- directive without a provider (Go would nil-panic on this path).
      runPassAux rest t changed

/-- One full pass of the entire directive list, in declaration order. -/
def runPass (expansions : List expand) (t : MetaObject) : MetaObject × Bool :=
  runPassAux expansions t false

/-- The outer loop of expand.go `expandTree` (`for i := 0; changed && i <
max; i++`): re-run full passes while the previous pass changed something,
up to `max` passes. -/
def expandIter (expansions : List expand) : Nat → MetaObject → Bool → MetaObject × Bool
  | 0, t, changed => (t, changed)
  | i + 1, t, changed =>
    if changed then
      expandIter expansions i (runPass expansions t).1 (runPass expansions t).2
    else (t, changed)

/-- expand.go `expandTree`: expand variables in the tree, returning the tree
and whether the final executed pass still changed something.  (The Go error
return is always nil here because the modelled `ToExpanded` cannot fail.) -/
def expandTree (t : MetaObject) (max : Int) (expansions : List expand) :
    MetaObject × Bool :=
  expandIter expansions max.toNat t true

/-- The expansion non-convergence condition of the spec. -/
inductive ExpandErr where
  | expansionNotConverged
deriving DecidableEq

/-- Modelled from the spec: the compile stage (absent from src/) runs
`expandTree` and treats an exhausted pass budget with changes still pending
as the fatal expansion-did-not-converge error. -/
def expandAndVerify (t : MetaObject) (max : Int) (expansions : List expand) :
    Except ExpandErr MetaObject :=
  if (expandTree t max expansions).2 then .error .expansionNotConverged
  else .ok (expandTree t max expansions).1

/-- Modelled from the spec (§3): the spec's TreeNode, a tagged variant over
the three shapes — scalar, ordered map, array.  pkg/meta's merge engine is
absent from src/, so the tree and the merge below are built from the spec's
words; scalars are kept opaque as strings. -/
inductive TreeNode where
  | scalar (v : String)
  | array (elems : List TreeNode)
  | map (entries : List (String × TreeNode))

mutual

/-- Modelled from the spec (§4.4): merge a later tree into an earlier one —
two scalars: the later wins; two maps: union of keys, recursing where both
define a key; two arrays: the later replaces the earlier wholesale; any
other shape pairing is a fatal type-conflict error.  (Origin concatenation
is not modelled: origins are diagnostics-only.)  Result map order: the
earlier record's keys first, then the later record's new keys. -/
def mergeTree : TreeNode → TreeNode → Except String TreeNode
  | .scalar _, .scalar b => .ok (.scalar b)
  | .array _, .array b => .ok (.array b)
  | .map a, .map b =>
    match mergeEntries a b with
    | .error e => .error e
    | .ok merged =>
      .ok (.map (merged ++ b.filter (fun kv => (lookupA kv.1 a).isNone)))
  | _, _ => .error "type conflict"

/-- Merge each key of the earlier map with the later map's entry for that
key (when present). -/
def mergeEntries : List (String × TreeNode) → List (String × TreeNode) →
    Except String (List (String × TreeNode))
  | [], _ => .ok []
  | (k, va) :: rest, b =>
    let headRes : Except String TreeNode :=
      match lookupA k b with
      | some vb => mergeTree va vb
      | none => .ok va
    match headRes with
    | .error e => .error e
    | .ok m =>
      match mergeEntries rest b with
      | .error e => .error e
      | .ok tail => .ok ((k, m) :: tail)

end

/-- ASCII lower-casing of one character (`strings.ToLower` restricted to
ASCII, which is all the collector's extension matching needs). -/
def toLowerChar (c : Char) : Char :=
  if 65 ≤ c.toNat ∧ c.toNat ≤ 90 then Char.ofNat (c.toNat + 32) else c

/-- `strings.ToLower` (ASCII). -/
def toLowerStr (s : String) : String := String.mk (s.toList.map toLowerChar)

/-- The error values Marshal, Unmarshal and their helpers can return.
`ErrNotCompiled` and `ErrCodecNotFound` are the sentinels of errors.go;
`ErrNotFound` and `ErrTypeMismatch` are meta's fetch sentinels; the
remaining constructors stand for the wrapped errors of the option,
compile, unification, encoding, decoding and validation stages. -/
inductive GErr where
  | ErrNotCompiled
  | ErrCodecNotFound
  | ErrNotFound
  | ErrTypeMismatch
  | optionFailed
  | compileFailed
  | unifyFailed
  | encodeFailed
  | decodeFailed
  | validatorFailed
deriving DecidableEq

/-- The codec-registry encoder collaborator (spec §6): plain and
origin-extended encodings of a tree (`ToRaw` conversion is folded into the
encoder boundary). -/
structure Encoder where
  encode : MetaObject → Except GErr String
  encodeExtended : MetaObject → Except GErr String

/-- Collaborators of Marshal that live outside this repository's src/:
meta's `ToRedacted` transformation and the default YAML documentation
renderer (`yaml.Renderer.Encode` on a unified tree). -/
structure MarshalCollab where
  toRedacted : MetaObject → MetaObject
  defaultRenderer : Unified → Except GErr String

/-- marshal.go's `marshalOptions` accumulator (the `mappers` field and the
`Map` method it feeds are not modelled; documentation translation uses the
stored doc tree as-is). -/
structure marshalOptions where
  redactSecrets : Bool
  onlyDefaults : Bool
  withDocumentation : Bool
  withOrigins : Bool
  format : String
  enc : Unified → Except GErr String

/-- The `MarshalOption` values of marshal.go, by the `marshalApply` each
implements: `RedactSecrets`, `IncludeOrigins`, `FormatAs`,
`IncludeDocumentation`, `OnlyDefaults` and `FormatAsYAML` (the latter
carrying the renderer it configures).  `MarshalOption` is an open Go
interface, so a caller-supplied implementation may fail: the `failing`
constructor stands for such an option. -/
inductive MarshalOption where
  | RedactSecrets (redact : Bool)
  | IncludeOrigins (origins : Bool)
  | FormatAs (extension : String)
  | IncludeDocumentation (doc : Bool)
  | OnlyDefaults (only : Bool)
  | FormatAsYAML (enc : Unified → Except GErr String)
  | failing (e : GErr)

/-- The `marshalApply` dispatch of marshal.go: each repository option sets
its field and cannot fail; a caller-supplied option may return an error. -/
def MarshalOption.marshalApply (opt : MarshalOption) (opts : marshalOptions) :
    Except GErr marshalOptions :=
  match opt with
  | .RedactSecrets r => .ok { opts with redactSecrets := r }
  | .IncludeOrigins w => .ok { opts with withOrigins := w }
  | .FormatAs f => .ok { opts with format := f }
  | .IncludeDocumentation i => .ok { opts with withDocumentation := i }
  | .OnlyDefaults o => .ok { opts with onlyDefaults := o }
  | .FormatAsYAML e => .ok { opts with format := "yaml", enc := e }
  | .failing e => .error e

/-- unified_test.go (unmarshal.go) `unmarshalOptions`: the optional flag
and the validator.  The `mappers` field and the `MatchName` hook it feeds
are not modelled, and the mapstructure `decoder` configuration is
represented at the decoder boundary; the validator runs on the caller's
decoded result, so it is carried as its outcome. -/
structure unmarshalOptions where
  optional : Bool
  validator : Option (Except GErr Unit)

/-- The zero `unmarshalOptions` value: the request is required and no
validator is set. -/
def unmarshalOptionsDefault : unmarshalOptions :=
  { optional := false, validator := none }

/-- The `UnmarshalOption` values of unmarshal.go, by the `unmarshalApply`
each implements: `Optional`, `Required` (the same option with the flag
negated) and `WithValidator` (nil disables validation).  `UnmarshalOption`
is an open Go interface, so a caller-supplied implementation may fail: the
`failing` constructor stands for such an option. -/
inductive UnmarshalOption where
  | Optional (optional : Bool)
  | Required (required : Bool)
  | WithValidator (fn : Option (Except GErr Unit))
  | failing (e : GErr)

/-- The `unmarshalApply` dispatch of unmarshal.go. -/
def UnmarshalOption.unmarshalApply (opt : UnmarshalOption)
    (opts : unmarshalOptions) : Except GErr unmarshalOptions :=
  match opt with
  | .Optional b => .ok { opts with optional := b }
  | .Required b => .ok { opts with optional := !b }
  | .WithValidator fn => .ok { opts with validator := fn }
  | .failing e => .error e

/-- The option loop of `Config.unmarshal`: apply each option in order,
stopping at the first error (Go also skips nil interface values, which
have no counterpart here). -/
def unmarshalApplyLoop :
    List UnmarshalOption → unmarshalOptions → Except GErr unmarshalOptions
  | [], cfg => .ok cfg
  | o :: rest, cfg =>
    match o.unmarshalApply cfg with
    | .error e => .error e
    | .ok cfg2 => unmarshalApplyLoop rest cfg2

/-- The option loop of `Config.getMarshalOptions`: apply each option in
order, stopping at the first error (Go also skips nil interface values,
which have no counterpart here). -/
def marshalApplyLoop : List MarshalOption → marshalOptions → Except GErr marshalOptions
  | [], cfg => .ok cfg
  | o :: rest, cfg =>
    match o.marshalApply cfg with
    | .error e => .error e
    | .ok cfg2 => marshalApplyLoop rest cfg2

/-- `Config`: the compiled tree, the compile timestamp (0 is Go's zero
`time.Time`), the documentation tree (`opts.doc`), the encoder registry,
the stored default marshal and unmarshal options, the key delimiter and
the compile pipeline (`compileInternal` — collect, merge, expand — whose
code is outside src/, represented by its outcome). -/
structure Config where
  tree : MetaObject
  compiledAt : Nat
  doc : DocObject
  encoders : List (String × Encoder)
  marshalOptions : List MarshalOption
  unmarshalOptions : List UnmarshalOption
  keyDelimiter : String
  compileInternal : Bool → Except GErr MetaObject

/-- tags_test.go (marshal.go) `Config.getMarshalOptions`: defaults (no
documentation, the default YAML renderer, the registry's first extension as
format), then the stored options followed by the call's options. -/
def getMarshalOptions (collab : MarshalCollab) (c : Config)
    (opts : List MarshalOption) : Except GErr marshalOptions :=
  let cfg : marshalOptions :=
    { redactSecrets := false, onlyDefaults := false, withDocumentation := false,
      withOrigins := false,
      format := match c.encoders with
        | [] => ""
        | (e, _) :: _ => e,
      enc := collab.defaultRenderer }
  marshalApplyLoop (c.marshalOptions ++ opts) cfg

/-- Modelled from the spec: meta.Object.IsEmpty — a node with no value and
no children (pkg/meta is outside src/; origins are not modelled). -/
def MetaObject.IsEmpty (t : MetaObject) : Bool :=
  t.value.isNone && t.arr.isEmpty && t.map.isEmpty

/-- tags_test.go (marshal.go) `Config.getMarshalTree`: start from the
stored tree (or a defaults-only recompile), optionally redact, and return
no tree at all when the result is empty. -/
def getMarshalTree (collab : MarshalCollab) (c : Config) (cfg : marshalOptions) :
    Except GErr (Option MetaObject) :=
  match (if cfg.onlyDefaults then c.compileInternal true else .ok c.tree) with
  | .error e => .error e
  | .ok t0 =>
    let t1 := if cfg.redactSecrets then collab.toRedacted t0 else t0
    if t1.IsEmpty then .ok none else .ok (some t1)

mutual

/-- The structural depth of a tree, used to provision unification fuel. -/
def MetaObject.depth : MetaObject → Nat
  | .mk _ a m => 1 + Nat.max (metaDepthList a) (metaDepthMap m)

/-- Depth of a list of trees. -/
def metaDepthList : List MetaObject → Nat
  | [] => 0
  | t :: rest => Nat.max t.depth (metaDepthList rest)

/-- Depth of a tree map. -/
def metaDepthMap : List (String × MetaObject) → Nat
  | [] => 0
  | (_, t) :: rest => Nat.max t.depth (metaDepthMap rest)

end

mutual

/-- The structural depth of a documentation tree. -/
def DocObject.depth : DocObject → Nat
  | .mk _ _ _ ch => 1 + docDepthMap ch

/-- Depth of a documentation child map. -/
def docDepthMap : List (String × DocObject) → Nat
  | [] => 0
  | (_, d) :: rest => Nat.max d.depth (docDepthMap rest)

end

/-- tags_test.go (marshal.go) `Config.Marshal`, embedded as an explicit
state transformer — the second component is the Config after the call.
Faithful to the Go method, no branch writes any Config field: every exit
returns the state unchanged.  The not-compiled guard comes first; then the
options, the tree selection, and either the documentation path
(unification plus the configured renderer) or the plain codec path. -/
def Config.Marshal (collab : MarshalCollab) (c : Config)
    (opts : List MarshalOption) : (Except GErr String) × Config :=
  if c.compiledAt = 0 then (.error .ErrNotCompiled, c)
  else
    match getMarshalOptions collab c opts with
    | .error e => (.error e, c)
    | .ok cfg =>
      match getMarshalTree collab c cfg with
      | .error e => (.error e, c)
      | .ok none => (.ok "", c)
      | .ok (some tree) =>
        if cfg.withDocumentation then
          match calcUnified (c.doc.depth + tree.depth + 1) (some c.doc)
              (some tree) cfg.onlyDefaults with
          | .error _ => (.error .unifyFailed, c)
          | .ok got =>
            match cfg.enc got with
            | .error _ => (.error .encodeFailed, c)
            | .ok out => (.ok out, c)
        else
          match lookupA cfg.format c.encoders with
          | none => (.error .ErrCodecNotFound, c)
          | some enc =>
            if cfg.withOrigins then (enc.encodeExtended tree, c)
            else (enc.encode tree, c)

/-- Modelled from the spec (§7): `Config.Compile` reruns the pipeline and
installs the new tree and timestamp only when the whole pipeline succeeds;
a failing compile returns the error and leaves the Config untouched. -/
def Config.Compile (c : Config) (now : Nat) : (Except GErr Unit) × Config :=
  match c.compileInternal false with
  | .error e => (.error e, c)
  | .ok t => (.ok (), { c with tree := t, compiledAt := now })

/-- A collaborator set whose renderer always fails. -/
def collab0 : MarshalCollab where
  toRedacted := fun t => t
  defaultRenderer := fun _ => .error .encodeFailed

/-- A Config that was never compiled and whose pipeline fails. -/
def c0 : Config where
  tree := .mk none [] []
  compiledAt := 0
  doc := .mk "root" "" false []
  encoders := []
  marshalOptions := []
  unmarshalOptions := []
  keyDelimiter := "."
  compileInternal := fun _ => .error .compileFailed

/-- `strings.Contains` for a one-or-more-character needle. -/
def containsSub (s : String) (d : List Char) : Bool :=
  (findDelim d s.toList).isSome

/-- `strings.ContainsRune` / single-character `strings.Contains`. -/
def containsChar (s : String) (c : Char) : Bool :=
  s.toList.any (fun x => x = c)

/-- `unicode.IsSpace` (the Latin-1 range, which is all the formatter's
callers feed it: space, tab, newline, vertical tab, form feed, carriage
return, next line, no-break space). -/
def isSpaceGo (c : Char) : Bool :=
  c.toNat = 32 || c.toNat = 9 || c.toNat = 10 || c.toNat = 11 ||
  c.toNat = 12 || c.toNat = 13 || c.toNat = 133 || c.toNat = 160

/-- `unicode.IsControl(r) && r < 128`: the ASCII control characters. -/
def isCtrlASCII (c : Char) : Bool :=
  c.toNat < 32 || c.toNat = 127

/-- formatter.go `isKeyword`: the lower-cased string is a YAML keyword
(`strings.ToLower` restricted to ASCII). -/
def isKeyword (s : String) : Bool :=
  ["null", "true", "false", "~", ".inf", "-.inf", ".nan", "yes", "no",
    "on", "off"].contains (toLowerStr s)

/-- Every character is a decimal digit. -/
def allDigits (l : List Char) : Bool := l.all Char.isDigit

/-- The integer scan of formatter.go `isNumeric`: an optional sign followed
by at least one digit, and nothing else. -/
def intScan : List Char → Bool
  | [] => false
  | c :: rest =>
    if c = '-' ∨ c = '+' then !rest.isEmpty && allDigits rest
    else allDigits (c :: rest)

/-- Modelled from the Go standard library: `fmt.Sscanf(s, "%f", ...)`
succeeding — after optional leading space and an optional sign, the input
starts with a float literal (at least one digit in the integer or fraction
part; a trailing exponent or other trailing input does not matter for
success). -/
def scanFloatPrefix (cs0 : List Char) : Bool :=
  let cs1 := cs0.dropWhile (fun c => isSpaceGo c)
  let cs2 := match cs1 with
    | '+' :: r => r
    | '-' :: r => r
    | r => r
  let ip := cs2.takeWhile Char.isDigit
  let rest := cs2.dropWhile Char.isDigit
  let fp := match rest with
    | '.' :: r => r.takeWhile Char.isDigit
    | _ => []
  decide (0 < ip.length + fp.length)

/-- formatter.go `isNumeric`: an integer, or — when the string contains a
dot — something `%f` scans. -/
def isNumeric (s : String) : Bool :=
  if s.toList.isEmpty then false
  else intScan s.toList || (containsChar s '.' && scanFloatPrefix s.toList)

/-- The punctuation set of `hasSpecialChars` — hash, ampersand, asterisk,
bang, pipe, single quote, double quote, percent, at sign, backtick. -/
def yamlSpecialSet : List Char :=
  ['#', '&', '*', '!', '|'] ++ [Char.ofNat 39, Char.ofNat 34] ++
    ['%', '@', Char.ofNat 96]

/-- formatter.go `hasSpecialChars`: scanning the runes, newline and tab are
skipped; any other rune triggers on ASCII control characters, the special
punctuation set, or — whole-string conditions checked inside the loop — a
`": "` sequence or a backslash anywhere in the string. -/
def hasSpecialChars (s : String) : Bool :=
  s.toList.any (fun r =>
    if r = '\n' ∨ r = '\t' then false
    else isCtrlASCII r || yamlSpecialSet.contains r ||
      containsSub s [':', ' '] || containsSub s [Char.ofNat 92])

/-- formatter.go `hasControlChars`: an ASCII control character other than
newline or tab. -/
def hasControlChars (s : String) : Bool :=
  s.toList.any (fun r => if r = '\n' ∨ r = '\t' then false else isCtrlASCII r)

/-- formatter.go `hasSpecialSpaces`: the first or last byte is a
non-newline space (ASCII first/last characters). -/
def hasSpecialSpaces (s : String) : Bool :=
  match s.toList with
  | [] => false
  | c :: rest =>
    (decide (c ≠ '\n') && isSpaceGo c) ||
    (match (c :: rest).getLast? with
     | some cl => decide (cl ≠ '\n') && isSpaceGo cl
     | none => false)

/-- formatter.go `hasNormalContent`: some rune is neither a newline nor a
space. -/
def hasNormalContent (s : String) : Bool :=
  s.toList.any (fun r => decide (r ≠ '\n') && !isSpaceGo r)

/-- A lowercase hexadecimal digit. -/
def hexDigit (n : Nat) : Char :=
  if n < 10 then Char.ofNat (48 + n) else Char.ofNat (87 + n)

/-- Modelled from the Go standard library: `encoding/json`'s escaping of
one character — backslash escapes for quote and backslash, short escapes
for newline/carriage return/tab, `\u00xx` for other controls, and the
default HTML-safe escaping of angle brackets and ampersand (U+2028/2029
and invalid UTF-8 are not modelled). -/
def jsonEscapeChar (c : Char) : List Char :=
  if c = Char.ofNat 34 then [Char.ofNat 92, Char.ofNat 34]
  else if c = Char.ofNat 92 then [Char.ofNat 92, Char.ofNat 92]
  else if c = '\n' then [Char.ofNat 92, 'n']
  else if c = '\r' then [Char.ofNat 92, 'r']
  else if c = '\t' then [Char.ofNat 92, 't']
  else if c.toNat < 32 then
    [Char.ofNat 92, 'u', '0', '0', hexDigit (c.toNat / 16), hexDigit (c.toNat % 16)]
  else if c = '<' then [Char.ofNat 92, 'u', '0', '0', '3', 'c']
  else if c = '>' then [Char.ofNat 92, 'u', '0', '0', '3', 'e']
  else if c = '&' then [Char.ofNat 92, 'u', '0', '0', '2', '6']
  else [c]

/-- Modelled from the Go standard library: `json.Marshal` of a string — the
escaped text wrapped in double quotes. -/
def jsonQuote (s : String) : String :=
  String.mk ([Char.ofNat 34] ++ (s.toList.map jsonEscapeChar).flatten ++ [Char.ofNat 34])

/-- formatter.go `quoteAndEscapeValue`: JSON-quote the value, but return it
bare when quoting changed nothing beyond the surrounding quotes. -/
def quoteAndEscapeValue (val : String) : String :=
  let rv := jsonQuote val
  if rv = String.mk ([Char.ofNat 34] ++ val.toList ++ [Char.ofNat 34]) then val
  else rv

/-- The backwards space search of formatter.go `findBestSplitPoint`: from
`i` down while `i > low`, return one past the first space found. -/
def findSplitLoop (s : List Char) (low : Nat) : Nat → Option Nat
  | 0 => none
  | i + 1 =>
    if i + 1 ≤ low then none
    else if i + 1 < s.length ∧ s.getD (i + 1) 'x' = ' ' then some (i + 2)
    else findSplitLoop s low i

/-- formatter.go `findBestSplitPoint`: the whole string if it fits,
otherwise a word boundary in the upper half below `maxLen` (one slot is
reserved for the trailing backslash), otherwise `maxLen - 1` — which is 0
when `maxLen` is 1. -/
def findBestSplitPoint (s : List Char) (maxLen : Nat) : Nat :=
  if s.length ≤ maxLen then s.length
  else
    let e := maxLen - 1
    match findSplitLoop s (e / 2) e with
    | some r => r
    | none => e

/-- The chunking loop of formatter.go `chunkString`, with explicit fuel:
take a chunk at the best split point and append a backslash, until the
remainder fits.  The Go loop makes no progress when the split point is 0
(maximum length 1), so the embedding returns `none` when fuel runs out
while the loop is still running. -/
def chunkLoop (n : Nat) : Nat → List Char → List (List Char) → Option (List String)
  | 0, _, _ => none
  | fuel + 1, remaining, lines =>
    if remaining.isEmpty then some ((lines.reverse).map (fun l => String.mk l))
    else
      let splitPos := findBestSplitPoint remaining n
      if splitPos = remaining.length then
        some (((remaining :: lines).reverse).map (fun l => String.mk l))
      else
        chunkLoop n fuel (remaining.drop splitPos)
          ((remaining.take splitPos ++ [Char.ofNat 92]) :: lines)

/-- formatter.go `chunkString`: ensure the string is double-quoted, return
it whole when `n ≤ 0`, and otherwise run the chunking loop — with fuel one
more than the length, enough for every terminating run of the Go loop. -/
def chunkString (s0 : String) (n : Int) : Option (List String) :=
  let s := if (splitPrefix [Char.ofNat 34] s0.toList).isSome then s0.toList
    else [Char.ofNat 34] ++ s0.toList ++ [Char.ofNat 34]
  if n ≤ 0 then some [String.mk s]
  else chunkLoop n.toNat (s.length + 1) s []

/-- The outcome of one formatting attempt: declined, succeeded with lines
and a block style, or — for the attempts that chunk — a non-terminating
run of the Go code. -/
inductive FmtRes where
  | noMatch
  | diverge
  | ok (lines : List String) (style : String)

/-- formatter.go `formatter`: one formatting attempt. -/
def formatter : Type := String → Int → FmtRes

/-- formatter.go `tryPlainScalar`. -/
def tryPlainScalar (val : String) (maxLineLength : Int) : FmtRes :=
  if !containsChar val '\n' && !hasSpecialChars val && !hasSpecialSpaces val
      && !isKeyword val && !isNumeric val
      && (decide (maxLineLength ≤ 0) || decide ((val.length : Int) ≤ maxLineLength)) then
    .ok [val] ""
  else .noMatch

/-- formatter.go `trySingleQuotes` (the +2 pays for the quotes). -/
def trySingleQuotes (val : String) (maxLineLength : Int) : FmtRes :=
  if !containsChar val (Char.ofNat 39) && !containsChar val '\n'
      && !containsChar val '\t' && !hasControlChars val
      && (decide (maxLineLength ≤ 0) ||
          decide ((val.length : Int) + 2 ≤ maxLineLength)) then
    .ok [String.mk ([Char.ofNat 39] ++ val.toList ++ [Char.ofNat 39])] ""
  else .noMatch

/-- `strings.ReplaceAll(val, newline, backslash-n)`. -/
def escapeNewlines (s : String) : String :=
  String.mk ((s.toList.map
    (fun c => if c = '\n' then [Char.ofNat 92, 'n'] else [c])).flatten)

/-- formatter.go `tryWhitespaceOnly`. -/
def tryWhitespaceOnly (val : String) (_m : Int) : FmtRes :=
  if !hasNormalContent val then
    .ok [String.mk ([Char.ofNat 34] ++ (escapeNewlines val).toList ++ [Char.ofNat 34])] ""
  else .noMatch

/-- formatter.go `tryWhitespaceOnlyWithNewlines` (unreachable after
`tryWhitespaceOnly`, embedded all the same). -/
def tryWhitespaceOnlyWithNewlines (val : String) (_m : Int) : FmtRes :=
  if !hasNormalContent val && containsChar val '\n' then
    .ok [String.mk ([Char.ofNat 34] ++ (escapeNewlines val).toList ++ [Char.ofNat 34])] ""
  else .noMatch

/-- formatter.go `tryLeadingTrailingSpaces`: quote, escape and chunk. -/
def tryLeadingTrailingSpaces (val : String) (maxLineLength : Int) : FmtRes :=
  if hasSpecialSpaces val && !containsChar val '\n' then
    match chunkString (quoteAndEscapeValue val) maxLineLength with
    | some lines => .ok lines ""
    | none => .diverge
  else .noMatch

/-- formatter.go `tryLiteralBlockScalar`: newline-containing text with
content becomes a literal block — clip style when the value ends in a
newline (dropping the empty last split line), strip style otherwise. -/
def tryLiteralBlockScalar (val : String) (_m : Int) : FmtRes :=
  if containsChar val '\n' && hasNormalContent val then
    let lines := splitOnNewline val
    if val.toList.getLast? = some '\n' then
      .ok (if lines ≠ [] ∧ lines.getLast? = some "" then lines.dropLast else lines) "|"
    else .ok lines "|-"
  else .noMatch

/-- `strings.Fields`: maximal runs of non-space characters. -/
def fieldsAux : List Char → List Char → List (List Char)
  | [], acc => if acc.isEmpty then [] else [acc.reverse]
  | c :: rest, acc =>
    if isSpaceGo c then
      if acc.isEmpty then fieldsAux rest []
      else acc.reverse :: fieldsAux rest []
    else fieldsAux rest (c :: acc)

/-- `strings.Fields` on a string. -/
def fields (s : String) : List (List Char) := fieldsAux s.toList []

/-- The greedy line builder of formatter.go `tryFoldedBlockScalar`: pack
words into lines of at most `maxLL` characters (a word longer than the
limit gets a line of its own). -/
def foldWords (maxLL : Int) : List (List Char) → List Char → List (List Char)
  | [], current => if current.isEmpty then [] else [current]
  | w :: ws, current =>
    if current.isEmpty then foldWords maxLL ws w
    else if (current.length + 1 + w.length : Int) ≤ maxLL then
      foldWords maxLL ws (current ++ ' ' :: w)
    else current :: foldWords maxLL ws w

/-- formatter.go `tryFoldedBlockScalar`: long special-character-free text
of at least two words, one of which fits the limit, folded greedily. -/
def tryFoldedBlockScalar (val : String) (maxLineLength : Int) : FmtRes :=
  if maxLineLength ≤ 0 ∨ (val.length : Int) ≤ maxLineLength ∨ hasSpecialChars val then
    .noMatch
  else
    let words := fields val
    if words.length ≤ 1 then .noMatch
    else if !(words.any (fun w => decide ((w.length : Int) ≤ maxLineLength))) then
      .noMatch
    else .ok ((foldWords maxLineLength words []).map (fun l => String.mk l)) ">-"

/-- formatter.go `tryQuotedDefault`: quote and escape; chunk when the value
has special characters or the quoted form exceeds the limit, else a single
quoted line. -/
def tryQuotedDefault (val : String) (maxLineLength : Int) : FmtRes :=
  let quotedVal := quoteAndEscapeValue val
  if hasSpecialChars val ∨ (0 < maxLineLength ∧ maxLineLength < (quotedVal.length : Int)) then
    match chunkString quotedVal maxLineLength with
    | some lines => .ok lines ""
    | none => .diverge
  else .ok [quotedVal] ""

/-- The first-match loop of part_003 `formatValue`; the empty-list fallback
is the function's unreachable final return. -/
def tryFormatters (val : String) (maxLineLength : Int) : List formatter → FmtRes
  | [] => .ok [val] ""
  | f :: rest =>
    match f val maxLineLength with
    | .noMatch => tryFormatters val maxLineLength rest
    | r => r

/-- part_003 `formatValue`: a nil value renders as one empty line;
otherwise the eight formatters are tried in their fixed order and the
first non-declining attempt decides the output. -/
def formatValue (v : Option String) (maxLineLength : Int) : FmtRes :=
  match v with
  | none => .ok [""] ""
  | some val =>
    tryFormatters val maxLineLength
      [tryPlainScalar, trySingleQuotes, tryWhitespaceOnly,
        tryWhitespaceOnlyWithNewlines, tryLeadingTrailingSpaces,
        tryLiteralBlockScalar, tryFoldedBlockScalar, tryQuotedDefault]

/-- A two-character value, a double quote then the letter a. -/
def qa : String := String.mk [Char.ofNat 34, 'a']

/-- `strings.Split` on a non-empty delimiter, via the first-occurrence
search (fuelled by the input length, enough for every split). -/
def splitOnDelimAux (d : List Char) : Nat → List Char → List String
  | 0, cs => [String.mk cs]
  | fuel + 1, cs =>
    match findDelim d cs with
    | some (before, after) => String.mk before :: splitOnDelimAux d fuel after
    | none => [String.mk cs]

/-- `strings.Split(s, d)`. -/
def splitOnDelim (d : String) (s : String) : List String :=
  splitOnDelimAux d.toList (s.toList.length + 1) s.toList

/-- One fetch step of the spec's `Fetch` contract: a map-key lookup on a
map-shaped node; a numeric index on an array-shaped node, with a
non-numeric segment a type mismatch; and any segment on a node with no
children absent. -/
def MetaObject.fetchStep (t : MetaObject) (seg : String) : Except GErr MetaObject :=
  if t.map.isEmpty = false then
    match lookupA seg t.map with
    | some c => .ok c
    | none => .error .ErrNotFound
  else if t.arr.isEmpty = false then
    if !seg.toList.isEmpty && allDigits seg.toList then
      match t.arr.drop (natsort.digitsToNat seg.toList) with
      | c :: _ => .ok c
      | [] => .error .ErrNotFound
    else .error .ErrTypeMismatch
  else .error .ErrNotFound

/-- Modelled from the spec: `meta.Object.Fetch` (pkg/meta is outside src/)
— navigate the tree one path segment at a time: map-key lookups on
map-shaped nodes, numeric indices on array-shaped nodes; an absent key or
out-of-range index is the NotFound error and a segment addressing an array
without being numeric is the TypeMismatch error. -/
def MetaObject.Fetch (t : MetaObject) : List String → Except GErr MetaObject
  | [] => .ok t
  | seg :: rest =>
    match t.fetchStep seg with
    | .ok c => c.Fetch rest
    | .error e => .error e

/-- The mapstructure boundary of Unmarshal: the outcome of `NewDecoder` on
the configured DecoderConfig, and of `Decode` on the fetched subtree's raw
form (the decoder writes into the caller's result value, which lives
outside the Config; `ToRaw` is folded into the boundary). -/
structure UnmarshalCollab where
  newDecoder : Except GErr Unit
  decode : MetaObject → Except GErr Unit

/-- unified_test.go (unmarshal.go) `Config.unmarshal`: apply the stored
options followed by the call's options; fetch the addressed subtree — the
whole tree for the empty key, and on a fetch error return it unless the
optional flag is set and the error is NotFound, in which case decoding
proceeds on the zero Object, as Go's `obj, err = tree.Fetch(...)` leaves
it; then build the decoder, decode, and run the validator if one is set.
Nothing here writes to the Config. -/
def Config.unmarshal (collab : UnmarshalCollab) (c : Config) (key : String)
    (tree : MetaObject) (opts : List UnmarshalOption) : Except GErr Unit :=
  match unmarshalApplyLoop (c.unmarshalOptions ++ opts) unmarshalOptionsDefault with
  | .error e => .error e
  | .ok options =>
    match (if key.toList.isEmpty then .ok tree
      else
        match tree.Fetch (splitOnDelim c.keyDelimiter key) with
        | .ok obj => .ok obj
        | .error e =>
          if options.optional && decide (e = GErr.ErrNotFound) then
            .ok (MetaObject.mk none [] [])
          else .error e : Except GErr MetaObject) with
    | .error e => .error e
    | .ok obj =>
      match collab.newDecoder with
      | .error e => .error e
      | .ok _ =>
        match collab.decode obj with
        | .error e => .error e
        | .ok _ =>
          match options.validator with
          | some (.error e) => .error e
          | _ => .ok ()

/-- unified_test.go (unmarshal.go) `Config.Unmarshal`, embedded as an
explicit state transformer like Marshal: the not-compiled guard, then the
internal unmarshal on the stored tree.  Faithful to the Go method, no
branch writes any Config field. -/
def Config.Unmarshal (collab : UnmarshalCollab) (c : Config) (key : String)
    (opts : List UnmarshalOption) : (Except GErr Unit) × Config :=
  if c.compiledAt = 0 then (.error .ErrNotCompiled, c)
  else (Config.unmarshal collab c key c.tree opts, c)

/-- An unmarshal collaborator whose decoder construction succeeds and
whose decode always fails. -/
def ucollab0 : UnmarshalCollab where
  newDecoder := .ok ()
  decode := fun _ => .error .decodeFailed

/-- The compiled variant of the failing fixture Config. -/
def c1 : Config := { c0 with compiledAt := 1 }

/- ======================  theorems  ====================== -/

theorem strLtList_asymm : ∀ a b : List Char,
    strLtList a b = true → strLtList b a = true → False := by
  intro a
  induction a with
  | nil =>
    intro b h h'
    cases b with
    | nil => simp [strLtList] at h
    | cons c' cs' => simp [strLtList] at h'
  | cons c cs ih =>
    intro b h h'
    cases b with
    | nil => simp [strLtList] at h
    | cons c' cs' =>
      simp only [strLtList] at h h'
      by_cases h1 : c.toNat < c'.toNat
      · rw [if_neg (by omega : ¬ c'.toNat < c.toNat), if_pos h1] at h'
        exact absurd h' (by simp)
      · by_cases h2 : c'.toNat < c.toNat
        · rw [if_neg h1, if_pos h2] at h
          exact absurd h (by simp)
        · rw [if_neg h1, if_neg h2] at h
          rw [if_neg h2, if_neg h1] at h'
          exact ih cs' h h'

theorem strLtList_trans : ∀ a b c : List Char,
    strLtList a b = true → strLtList b c = true → strLtList a c = true := by
  intro a
  induction a with
  | nil =>
    intro b c h h'
    cases b with
    | nil => simp [strLtList] at h
    | cons b0 bs =>
      cases c with
      | nil => simp [strLtList] at h'
      | cons c0 cs => simp [strLtList]
  | cons a0 as ih =>
    intro b c h h'
    cases b with
    | nil => simp [strLtList] at h
    | cons b0 bs =>
      cases c with
      | nil => simp [strLtList] at h'
      | cons c0 cs =>
        simp only [strLtList] at h h' ⊢
        by_cases hab1 : a0.toNat < b0.toNat
        · by_cases hbc1 : b0.toNat < c0.toNat
          · rw [if_pos (by omega)]
          · by_cases hbc2 : c0.toNat < b0.toNat
            · rw [if_neg hbc1, if_pos hbc2] at h'
              exact absurd h' (by simp)
            · have : b0.toNat = c0.toNat := by omega
              rw [if_pos (by omega)]
        · by_cases hab2 : b0.toNat < a0.toNat
          · rw [if_neg hab1, if_pos hab2] at h
            exact absurd h (by simp)
          · have hab : a0.toNat = b0.toNat := by omega
            rw [if_neg hab1, if_neg hab2] at h
            by_cases hbc1 : b0.toNat < c0.toNat
            · rw [if_pos (by omega)]
            · by_cases hbc2 : c0.toNat < b0.toNat
              · rw [if_neg hbc1, if_pos hbc2] at h'
                exact absurd h' (by simp)
              · rw [if_neg hbc1, if_neg hbc2] at h'
                rw [if_neg (by omega), if_neg (by omega)]
                exact ih bs cs h h'

theorem strLtList_connex : ∀ a b : List Char,
    strLtList a b = false → strLtList b a = false → a = b := by
  intro a
  induction a with
  | nil =>
    intro b h h'
    cases b with
    | nil => rfl
    | cons c' cs' => simp [strLtList] at h
  | cons c cs ih =>
    intro b h h'
    cases b with
    | nil => simp [strLtList] at h'
    | cons c' cs' =>
      simp only [strLtList] at h h'
      by_cases h1 : c.toNat < c'.toNat
      · rw [if_pos h1] at h
        exact absurd h (by simp)
      · by_cases h2 : c'.toNat < c.toNat
        · rw [if_pos h2] at h'
          exact absurd h' (by simp)
        · rw [if_neg h1, if_neg h2] at h
          rw [if_neg h2, if_neg h1] at h'
          have hn : c.toNat = c'.toNat := by omega
          have hc : c = c' := Char.ext (UInt32.ext hn)
          rw [hc, ih cs' h h']

theorem toList_inj {a b : String} (h : a.toList = b.toList) : a = b := by
  cases a
  cases b
  simp only [String.toList] at h
  rw [h]

theorem strLt_asymm {a b : String} (h : strLt a b = true) (h' : strLt b a = true) :
    False :=
  strLtList_asymm _ _ h h'

theorem strLt_trans {a b c : String} (h : strLt a b = true) (h' : strLt b c = true) :
    strLt a c = true :=
  strLtList_trans _ _ _ h h'

theorem strLt_connex {a b : String} (h : strLt a b = false) (h' : strLt b a = false) :
    a = b :=
  toList_inj (strLtList_connex _ _ h h')

namespace natsort

theorem compareFloat_eq_specNatLt (a b : String) :
    CompareFloat a b = true ↔ specNatLt a b := by
  rcases ha : parseFloat a with _ | x <;> rcases hb : parseFloat b with _ | y <;>
    simp only [CompareFloat, specNatLt, ha, hb]
  all_goals try simp
  by_cases he : x = y
  · subst he
    simp
  · simp only [if_neg he, decide_eq_true_eq]
    constructor
    · exact fun h => Or.inl h
    · rintro (h | ⟨h, _⟩)
      · exact h
      · exact absurd h he

theorem specNatLt_asymm (a b : String) : specNatLt a b → specNatLt b a → False := by
  intro h h'
  rcases ha : parseFloat a with _ | x <;> rcases hb : parseFloat b with _ | y <;>
    simp only [specNatLt, ha, hb] at h h'
  · exact strLt_asymm h h'
  · rcases h with h | ⟨he, hs⟩ <;> rcases h' with h' | ⟨he', hs'⟩
    · exact absurd h' (not_lt_of_gt h)
    · exact absurd h (by simp [he'])
    · exact absurd h' (by simp [he])
    · exact strLt_asymm hs hs'

theorem specNatLt_trans (a b c : String) :
    specNatLt a b → specNatLt b c → specNatLt a c := by
  intro hab hbc
  rcases ha : parseFloat a with _ | x <;> rcases hb : parseFloat b with _ | y <;>
    rcases hc : parseFloat c with _ | z <;>
    simp only [specNatLt, ha, hb, hc] at hab hbc ⊢
  all_goals try exact strLt_trans hab hbc
  rcases hab with hab | ⟨he, hs⟩ <;> rcases hbc with hbc | ⟨he', hs'⟩
  · exact Or.inl (lt_trans hab hbc)
  · exact Or.inl (he' ▸ hab)
  · exact Or.inl (he ▸ hbc)
  · exact Or.inr ⟨he.trans he', strLt_trans hs hs'⟩

/-- Every pair of distinct strings is strictly ordered one way or the other
by the natural order (there are no incomparable distinct keys). -/
theorem specNatLt_connex (a b : String) :
    ¬ specNatLt a b → ¬ specNatLt b a → a = b := by
  intro h h'
  rcases ha : parseFloat a with _ | x <;> rcases hb : parseFloat b with _ | y <;>
    simp only [specNatLt, ha, hb] at h h'
  · exact strLt_connex (Bool.not_eq_true _ ▸ h) (Bool.not_eq_true _ ▸ h')
  · exact absurd trivial h'
  · exact absurd trivial h
  · push_neg at h h'
    have hxy : x = y := le_antisymm h'.1 h.1
    exact strLt_connex (Bool.not_eq_true _ ▸ h.2 hxy)
      (Bool.not_eq_true _ ▸ h'.2 hxy.symm)

theorem natLeRel_iff (a b : String) : natLeRel a b ↔ ¬ specNatLt b a := by
  constructor
  · intro h hs
    have hcf := (compareFloat_eq_specNatLt b a).mpr hs
    simp [natLeRel, natLeB, hcf] at h
  · intro h
    have hcf : CompareFloat b a = false := by
      cases hcf : CompareFloat b a
      · rfl
      · exact absurd ((compareFloat_eq_specNatLt b a).mp hcf) h
    simp [natLeRel, natLeB, hcf]

instance : IsTotal String natLeRel := by
  constructor
  intro a b
  rw [natLeRel_iff, natLeRel_iff]
  by_cases h : specNatLt b a
  · exact Or.inr fun h' => specNatLt_asymm a b h' h
  · exact Or.inl h

instance : IsTrans String natLeRel := by
  constructor
  intro a b c hab hbc
  rw [natLeRel_iff] at hab hbc ⊢
  intro hca
  by_cases hcb : specNatLt c b
  · exact hbc hcb
  · by_cases hbc' : specNatLt b c
    · exact hab (specNatLt_trans _ _ _ hbc' hca)
    · exact hab (specNatLt_connex _ _ hcb hbc' ▸ hca)

end natsort

theorem splitLines_ne_nil : ∀ l : List Char, splitLines l ≠ [] := by
  intro l
  cases l with
  | nil => simp [splitLines]
  | cons c rest =>
    simp only [splitLines]
    by_cases h : c = '\n'
    · simp [h]
    · simp only [if_neg h]
      rcases hr : splitLines rest with _ | ⟨h0, t0⟩
      · simp
      · simp

/-- Claim C6 (confirmed): the children of a unified node render in natural
(numeric-aware) sorted order of their key names — `childKeys` is a
permutation of the child keys in which no later key strictly precedes an
earlier one under the spec's ordering (two keys that parse as numbers
compare by numeric value with ties broken by string comparison, a numeric
key orders before a non-numeric one, and other keys compare as plain
strings), and the comparator the code sorts with (`CompareFloat`) decides
exactly that ordering. -/
theorem childKeys_natural_sort (u : Unified) :
    u.childKeys.Perm (u.children.map Prod.fst)
    ∧ List.Pairwise (fun a b => ¬ natsort.specNatLt b a) u.childKeys
    ∧ (∀ a b : String, natsort.CompareFloat a b = true ↔ natsort.specNatLt a b) := by
  refine ⟨List.perm_insertionSort _ _, ?_, natsort.compareFloat_eq_specNatLt⟩
  have hs := List.sorted_insertionSort natsort.natLeRel (u.children.map Prod.fst)
  exact hs.imp (fun h => (natsort.natLeRel_iff _ _).mp h)

/-- Claim C5 (amended, proved): the header lines of a unified node are
exactly, in order: the deprecation banner (only if flagged), the
documentation text lines (only if documentation is attached), the type line
(only if documentation is attached and its type does not render as the root
type), the default line (only if a preset value was supplied), and the
closing deprecation banner (only if flagged). -/
theorem headers_render_order (u : Unified) :
    u.Headers = headerBanner u ++ headerDocLines u ++ headerTypeLines u
      ++ headerDefaultLines u ++ headerBanner u := by
  rcases u with ⟨d, key, value, preset, indent, array, children⟩
  rcases d with _ | d
  · rcases preset with _ | p <;>
      simp [Unified.Headers, headerBanner, headerDocLines, headerTypeLines,
        headerDefaultLines, Unified.doc, Unified.preset]
  · by_cases hroot : d.TypeString = TYPE_ROOT
    · have hsplit : splitOnNewline d.TypeString = [TYPE_ROOT] := by
        rw [hroot]
        rfl
      rcases preset with _ | p <;> cases hdep : d.Deprecated <;>
        simp [Unified.Headers, headerBanner, headerDocLines, headerTypeLines,
          headerDefaultLines, Unified.doc, Unified.preset, hroot, hdep, hsplit] <;>
        rfl
    · rcases hs : splitOnNewline d.TypeString with _ | ⟨t0, rest⟩
      · exact absurd hs (splitLines_ne_nil _ ∘ (by
          intro h
          simpa [splitOnNewline] using congrArg (List.map String.toList) h))
      · rcases preset with _ | p <;> cases hdep : d.Deprecated <;>
        simp [Unified.Headers, headerBanner, headerDocLines, headerTypeLines,
          headerDefaultLines, Unified.doc, Unified.preset, hroot, hdep, hs]

/-- Claim C5 counterexample: a unified node whose documentation renders the
root type produces, in order, only the deprecation banner, the doc text and
the closing banner — no type line at all — refuting the claim that the type
line appears in every node's header block. -/
theorem headers_no_type_line_for_root :
    Unified.Headers (.mk (some (.mk TYPE_ROOT "x" true [])) none none none 0 false [])
        = [noticeDeprecated, "x", noticeDeprecated]
    ∧ (Unified.Headers (.mk (some (.mk TYPE_ROOT "x" true [])) none none none 0
        false [])).any isTypeLine = false := by
  constructor
  · rfl
  · rfl

/-- Claim C4 (amended, proved): documentation unification fails with the
conflicting-definitions error whenever the same position carries both
array-shaped data (array-typed documentation, or compiled array children)
and map-shaped data (documentation children of a non-array-typed
documentation object, or compiled map children). -/
theorem calcUnified_conflicting_definitions (fuel : Nat) (name : Option String)
    (indent : Int) (d : Option DocObject) (compiled : Option MetaObject)
    (withOrigins : Bool)
    (hmap : (∃ dd, d = some dd ∧ dd.typ ≠ TYPE_ARRAY ∧ dd.Children ≠ []) ∨
            (∃ c, compiled = some c ∧ c.map ≠ []))
    (harr : (∃ dd, d = some dd ∧ dd.typ = TYPE_ARRAY) ∨
            (∃ c, compiled = some c ∧ c.arr ≠ [])) :
    calcUnifiedInternal (fuel + 1) name indent d compiled withOrigins
      = .error .conflictingDefinitions := by
  rcases d with _ | dd <;> rcases compiled with _ | c
  · rcases hmap with ⟨dd, h, _⟩ | ⟨c, h, _⟩ <;> simp at h
  · -- only a compiled node: both shapes must come from it
    have hm : 0 < c.map.length := by
      rcases hmap with ⟨dd, h, _⟩ | ⟨c', h, hmm⟩
      · simp at h
      · rw [Option.some.injEq] at h
        subst h
        exact List.length_pos.mpr hmm
    have ha : 0 < c.arr.length := by
      rcases harr with ⟨dd, h, _⟩ | ⟨c', h, haa⟩
      · simp at h
      · rw [Option.some.injEq] at h
        subst h
        exact List.length_pos.mpr haa
    simp only [calcUnifiedInternal]
    rw [if_neg (by omega), if_pos (Or.inr ⟨by omega, by omega⟩)]
  · -- only a documentation node: it cannot be both array- and map-shaped
    rcases hmap with ⟨dd', h, hne, hch⟩ | ⟨c, h, _⟩
    · rcases harr with ⟨dd', h', heq⟩ | ⟨c, h', _⟩
      · rw [Option.some.injEq] at h h'
        subst h
        subst h'
        exact absurd heq hne
      · simp at h'
    · simp at h
  · -- both a documentation node and a compiled node
    rcases harr with ⟨dd', h', heq⟩ | ⟨c', h', ha⟩
    · rw [Option.some.injEq] at h'
      subst h'
      have hA : (dd.typ == TYPE_ARRAY) = true := by simpa using heq
      have hm : 0 < c.map.length := by
        rcases hmap with ⟨dd', h, hne, _⟩ | ⟨c', h, hmm⟩
        · rw [Option.some.injEq] at h
          subst h
          exact absurd heq hne
        · rw [Option.some.injEq] at h
          subst h
          exact List.length_pos.mpr hmm
      simp only [calcUnifiedInternal, hA, if_true]
      rw [if_neg (by omega), if_pos (Or.inl ⟨trivial, by omega⟩)]
    · rw [Option.some.injEq] at h'
      subst h'
      have ha' : 0 < c.arr.length := List.length_pos.mpr ha
      have hml : 0 < max (if (dd.typ == TYPE_ARRAY) = true then 0
          else dd.Children.length) c.map.length := by
        rcases hmap with ⟨dd', h, hne, hch⟩ | ⟨c', h, hmm⟩
        · rw [Option.some.injEq] at h
          subst h
          have hA : (dd.typ == TYPE_ARRAY) = false := by simpa using hne
          rw [hA]
          simp only [Bool.false_eq_true, if_false]
          exact Nat.lt_of_lt_of_le (List.length_pos.mpr hch) (Nat.le_max_left _ _)
        · rw [Option.some.injEq] at h
          subst h
          exact Nat.lt_of_lt_of_le (List.length_pos.mpr hmm) (Nat.le_max_right _ _)
      simp only [calcUnifiedInternal]
      rw [if_neg (by omega), if_pos (Or.inr ⟨by omega, by omega⟩)]

/-- Witness for `calcUnified_conflicting_definitions`: a struct-typed
documentation object with one named child zipped against a compiled node
holding one array element fails with the conflicting-definitions error. -/
theorem calcUnified_conflicting_definitions_witness :
    calcUnifiedInternal 1 none (-1)
        (some (.mk "struct" "" false [("a", .mk "string" "" false [])]))
        (some (.mk none [.mk none [] []] [])) false
      = .error .conflictingDefinitions :=
  calcUnified_conflicting_definitions 0 none (-1) _ _ false
    (Or.inl ⟨_, rfl, by decide, by exact List.cons_ne_nil _ _⟩)
    (Or.inr ⟨_, rfl, by exact List.cons_ne_nil _ _⟩)

/-- Claim C4 counterexample: an array-typed documentation object that itself
has documentation children (the reserved array-element entry) combined with
a compiled array does not fail — unification succeeds — refuting the claim
that any simultaneous presence of documentation children and array-shaped
data yields the conflicting-definitions error. -/
theorem calcUnified_docArray_children_ok :
    (calcUnifiedInternal 3 none (-1)
        (some (.mk TYPE_ARRAY "" false [(NAME_ARRAY, .mk "string" "" false [])]))
        (some (.mk none [.mk (some (.vStr "item1")) [] []] [])) false).isOk
      = true := by
  rfl

theorem splitPrefix_eq : ∀ p cs r : List Char, splitPrefix p cs = some r → cs = p ++ r := by
  intro p
  induction p with
  | nil =>
    intro cs r h
    simp only [splitPrefix, Option.some.injEq] at h
    simp [h]
  | cons p ps ih =>
    intro cs r h
    cases cs with
    | nil => simp [splitPrefix] at h
    | cons c cs' =>
      simp only [splitPrefix] at h
      by_cases he : p = c
      · rw [if_pos he] at h
        simp [he, ih cs' r h]
      · rw [if_neg he] at h
        exact absurd h (by simp)

theorem findDelim_eq : ∀ d cs b a : List Char,
    findDelim d cs = some (b, a) → cs = b ++ d ++ a := by
  intro d cs
  induction cs with
  | nil =>
    intro b a h
    simp only [findDelim] at h
    by_cases hd : d.isEmpty
    · rw [if_pos hd] at h
      simp only [Option.some.injEq, Prod.mk.injEq] at h
      simp [List.isEmpty_iff.mp hd, ← h.1, ← h.2]
    · rw [if_neg hd] at h
      exact absurd h (by simp)
  | cons c rest ih =>
    intro b a h
    cases hp : splitPrefix d (c :: rest) with
    | some after =>
      simp only [findDelim, hp, Option.some.injEq, Prod.mk.injEq] at h
      rw [← h.1, ← h.2]
      simpa using splitPrefix_eq d (c :: rest) after hp
    | none =>
      cases hf : findDelim d rest with
      | some pair =>
        obtain ⟨b', a'⟩ := pair
        simp only [findDelim, hp, hf, Option.some.injEq, Prod.mk.injEq] at h
        rw [← h.1, ← h.2]
        simpa using ih b' a' hf
      | none =>
        simp [findDelim, hp, hf] at h

theorem expandScan_unchanged (startD endD : List Char) (f : Expander) :
    ∀ (fuel : Nat) (cs : List Char),
      (expandScan startD endD f fuel cs).2 = false →
      (expandScan startD endD f fuel cs).1 = cs := by
  intro fuel
  induction fuel with
  | zero => intro cs _; rfl
  | succ fuel ih =>
    intro cs h
    cases cs with
    | nil => rfl
    | cons c rest =>
      cases hp : splitPrefix startD (c :: rest) with
      | none =>
        simp only [expandScan, hp] at h ⊢
        rw [ih rest h]
      | some afterStart =>
        cases hfd : findDelim endD afterStart with
        | none =>
          simp only [expandScan, hp, hfd]
        | some pair =>
          obtain ⟨inner, after⟩ := pair
          cases hf : f (String.mk inner) with
          | some r =>
            simp [expandScan, hp, hfd, hf] at h
          | none =>
            simp only [expandScan, hp, hfd, hf] at h ⊢
            rw [ih after h]
            have h1 := splitPrefix_eq startD (c :: rest) afterStart hp
            have h2 := findDelim_eq endD afterStart inner after hfd
            rw [h1, h2]
            simp

theorem mk_toList (s : String) : String.mk s.toList = s := rfl

theorem toExpandedValue_unchanged (startD endD : List Char) (f : Expander)
    (v : Option Value) (h : (toExpandedValue startD endD f v).2 = false) :
    (toExpandedValue startD endD f v).1 = v := by
  rcases v with _ | v
  · rfl
  · rcases v with s | n | b
    · simp only [toExpandedValue] at h ⊢
      rw [expandScan_unchanged startD endD f (s.length + 1) s.toList h, mk_toList]
    · rfl
    · rfl

theorem toExpandedGo_unchanged (startD endD : List Char) (f : Expander) :
    ∀ t : MetaObject, (toExpandedGo startD endD f t).2 = false →
      (toExpandedGo startD endD f t).1 = t := by
  apply toExpandedGo.induct startD endD f
    (fun t => (toExpandedGo startD endD f t).2 = false →
      (toExpandedGo startD endD f t).1 = t)
    (fun mp => (toExpandedMap startD endD f mp).2 = false →
      (toExpandedMap startD endD f mp).1 = mp)
    (fun arr => (toExpandedList startD endD f arr).2 = false →
      (toExpandedList startD endD f arr).1 = arr)
  · intro v arr mp ih3 ih2 h
    simp only [toExpandedGo, Bool.or_eq_false_iff] at h ⊢
    rw [toExpandedValue_unchanged startD endD f v h.1.1, ih3 h.1.2, ih2 h.2]
  · intro _
    rfl
  · intro next rest ih1 ih3 h
    simp only [toExpandedList, Bool.or_eq_false_iff] at h ⊢
    rw [ih1 h.1, ih3 h.2]
  · intro _
    rfl
  · intro k t rest ih1 ih2 h
    simp only [toExpandedMap, Bool.or_eq_false_iff] at h ⊢
    rw [ih1 h.1, ih2 h.2]

theorem runPassAux_unchanged : ∀ (exps : List expand) (t : MetaObject) (ch : Bool),
    (runPassAux exps t ch).2 = false →
    (runPassAux exps t ch).1 = t ∧ ch = false := by
  intro exps
  induction exps with
  | nil => intro t ch h; exact ⟨rfl, h⟩
  | cons exp rest ih =>
    intro t ch h
    cases he : exp.expander with
    | none =>
      simp only [runPassAux, he] at h ⊢
      exact ih t ch h
    | some f =>
      simp only [runPassAux, he] at h ⊢
      obtain ⟨h1, h2⟩ := ih _ _ h
      simp only [Bool.or_eq_false_iff] at h2
      have hu := toExpandedGo_unchanged exp.start.toList exp.end_.toList f t h2.2
      constructor
      · rw [h1]
        exact hu
      · exact h2.1

/-- Claim C2 (confirmed): `expandTree` re-runs the whole directive list each
pass and stops as soon as a full pass performs no substitution — in
particular, if one pass over the tree substitutes nothing (e.g. no
placeholders remain), the tree comes back unchanged with the changed flag
down, for any positive pass budget; and whenever the pass budget is
exhausted with substitutions still occurring (the changed flag still up, as
with a self-referential placeholder), the compile-stage check reports the
fatal expansion-not-converged error. -/
theorem expandTree_stops_or_not_converged (t : MetaObject) (max : Int)
    (exps : List expand) :
    ((runPass exps t).2 = false → 1 ≤ max → expandTree t max exps = (t, false))
    ∧ ((expandTree t max exps).2 = true →
        expandAndVerify t max exps = .error .expansionNotConverged) := by
  constructor
  · intro hpass hmax
    obtain ⟨h1, _⟩ := runPassAux_unchanged exps t false hpass
    have hk : ∃ k, max.toNat = k + 1 := ⟨max.toNat - 1, by omega⟩
    obtain ⟨k, hk⟩ := hk
    unfold expandTree
    rw [hk]
    simp only [expandIter, if_pos rfl]
    rw [(show (runPass exps t).1 = t from h1), hpass]
    cases k with
    | zero => rfl
    | succ k' => simp [expandIter]
  · intro hch
    simp [expandAndVerify, hch]

/-- Witness for `expandTree_stops_or_not_converged`: a tree with no
placeholders is returned unchanged after one pass, and a self-referential
placeholder (`A` expands to `${A}`) exhausts a three-pass budget still
changing, which the convergence check turns into the fatal error. -/
theorem expandTree_stops_or_not_converged_witness :
    expandTree (.mk (some (.vStr "hello")) [] []) 3
        [Expand (some fun s => if s = "A" then some "${A}" else none) []]
      = (.mk (some (.vStr "hello")) [] [], false)
    ∧ expandAndVerify (.mk (some (.vStr "${A}")) [] []) 3
        [Expand (some fun s => if s = "A" then some "${A}" else none) []]
      = .error .expansionNotConverged :=
  ⟨(expandTree_stops_or_not_converged (.mk (some (.vStr "hello")) [] []) 3
      [Expand (some fun s => if s = "A" then some "${A}" else none) []]).1
      (by rfl) (by decide),
   (expandTree_stops_or_not_converged (.mk (some (.vStr "${A}")) [] []) 3
      [Expand (some fun s => if s = "A" then some "${A}" else none) []]).2
      (by rfl)⟩

/-- Claim C3 counterexample: constructing a directive with a nil provider
and applying it to the options is not a configuration error — `apply`
returns a nil error and silently registers nothing. -/
theorem expand_nil_provider_no_error :
    (Expand none []).apply { expansions := [] } = .ok { expansions := [] } := by
  rfl

/-- Claim C3 (amended, proved): a directive whose provider is nil is
silently dropped when the option is applied — `expand.apply` returns a nil
error and registers nothing — and applying any directive preserves the
invariant that every registered expansion has a provider, so expansion is
never attempted with a nil provider. -/
theorem expand_apply_nil_dropped (exp : expand) (opts : options)
    (hinv : ∀ e ∈ opts.expansions, e.expander.isSome = true) :
    (exp.expander = none → exp.apply opts = .ok opts)
    ∧ ∃ res, exp.apply opts = .ok res
        ∧ ∀ e ∈ res.expansions, e.expander.isSome = true := by
  constructor
  · intro hnone
    unfold expand.apply
    by_cases hm : exp.maximum < 1 <;>
      simp [hm, hnone]
  · unfold expand.apply
    cases hx : exp.expander with
    | none =>
      refine ⟨opts, ?_, hinv⟩
      by_cases hm : exp.maximum < 1 <;> simp [hm, hx]
    | some f =>
      by_cases hm : exp.maximum < 1
      · refine ⟨{ opts with expansions := opts.expansions
            ++ [{ exp with maximum := 10000 }] }, ?_, ?_⟩
        · simp [expand.apply, hm, hx]
        · intro e he
          simp only [List.mem_append, List.mem_singleton] at he
          rcases he with he | he
          · exact hinv e he
          · rw [he]
            simp [hx]
      · refine ⟨{ opts with expansions := opts.expansions ++ [exp] }, ?_, ?_⟩
        · simp [expand.apply, hm, hx]
        · intro e he
          simp only [List.mem_append, List.mem_singleton] at he
          rcases he with he | he
          · exact hinv e he
          · rw [he]
            simp [hx]

/-- Witness for `expand_apply_nil_dropped` at a nil-provider directive and
empty options. -/
theorem expand_apply_nil_dropped_witness :
    ((Expand none []).expander = none →
        (Expand none []).apply { expansions := [] } = .ok { expansions := [] })
    ∧ ∃ res, (Expand none []).apply { expansions := [] } = .ok res
        ∧ ∀ e ∈ res.expansions, e.expander.isSome = true :=
  expand_apply_nil_dropped (Expand none []) { expansions := [] } (by simp)

theorem foldl_expandApply_delims (opts : List ExpandOption) :
    ∀ e : expand, (∀ o ∈ opts, o.isDelimiters = false) →
      (opts.foldl (fun e o => o.expandApply e) e).start = e.start ∧
      (opts.foldl (fun e o => o.expandApply e) e).end_ = e.end_ := by
  induction opts with
  | nil => exact fun e _ => ⟨rfl, rfl⟩
  | cons o rest ih =>
    intro e h
    have ho := h o (List.mem_cons_self _ _)
    have hr := ih (o.expandApply e)
      (fun o' ho' => h o' (List.mem_cons_of_mem _ ho'))
    cases o with
    | WithOrigin s =>
      simpa [ExpandOption.expandApply] using hr
    | WithDelimiters s e' =>
      simp [ExpandOption.isDelimiters] at ho
    | WithMaximum m =>
      simpa [ExpandOption.expandApply] using hr

/-- Claim C10 (confirmed): a directive built by `Expand` or `ExpandEnv`
without delimiter options keeps the default `${` / `}` delimiters, and a
directive whose maximum ends up below 1 (unset or explicitly small) is
registered by `expand.apply` with a maximum of exactly 10000. -/
theorem expand_defaults_and_maximum (p : Expander) (opts : List ExpandOption)
    (os : options) :
    ((∀ o ∈ opts, o.isDelimiters = false) →
        (Expand (some p) opts).start = "$\x7b" ∧ (Expand (some p) opts).end_ = "\x7d"
        ∧ (ExpandEnv p opts).start = "$\x7b" ∧ (ExpandEnv p opts).end_ = "\x7d")
    ∧ ((Expand (some p) opts).maximum < 1 →
        (Expand (some p) opts).apply os
          = .ok { os with expansions := os.expansions
              ++ [{ Expand (some p) opts with maximum := 10000 }] })
    ∧ ((ExpandEnv p opts).maximum < 1 →
        (ExpandEnv p opts).apply os
          = .ok { os with expansions := os.expansions
              ++ [{ ExpandEnv p opts with maximum := 10000 }] }) := by
  refine ⟨?_, ?_, ?_⟩
  · intro h
    obtain ⟨h1, h2⟩ := foldl_expandApply_delims opts _ h
    obtain ⟨h3, h4⟩ := foldl_expandApply_delims opts
      { origin := "environment", start := "$\x7b", end_ := "\x7d", expander := some p,
        maximum := 0 } h
    exact ⟨h1, h2, h3, h4⟩
  · intro hm
    have hx : (Expand (some p) opts).expander = some p := by
      clear hm
      induction opts using List.reverseRecOn with
      | nil => rfl
      | append_singleton rest o ih =>
        unfold Expand at ih ⊢
        rw [List.foldl_append]
        cases o <;> simpa [ExpandOption.expandApply] using ih
    unfold expand.apply
    rw [if_pos hm]
    simp [hx]
  · intro hm
    have hx : (ExpandEnv p opts).expander = some p := by
      clear hm
      induction opts using List.reverseRecOn with
      | nil => rfl
      | append_singleton rest o ih =>
        unfold ExpandEnv at ih ⊢
        rw [List.foldl_append]
        cases o <;> simpa [ExpandOption.expandApply] using ih
    unfold expand.apply
    rw [if_pos hm]
    simp [hx]

/-- Witness for `expand_defaults_and_maximum`: no options at all — default
delimiters, maximum 0 registered as 10000. -/
theorem expand_defaults_and_maximum_witness :
    ((Expand (some fun _ => none) []).start = "$\x7b"
      ∧ (Expand (some fun _ => none) []).end_ = "\x7d"
      ∧ (ExpandEnv (fun _ => none) []).start = "$\x7b"
      ∧ (ExpandEnv (fun _ => none) []).end_ = "\x7d")
    ∧ (Expand (some fun _ => none) []).apply { expansions := [] }
        = .ok { expansions := [{ Expand (some fun _ => none) [] with maximum := 10000 }] } := by
  refine ⟨(expand_defaults_and_maximum (fun _ => none) [] { expansions := [] }).1
    (by intro o ho; simp at ho), ?_⟩
  have h := (expand_defaults_and_maximum (fun _ => none) [] { expansions := [] }).2.1
    (by decide)
  simpa using h

theorem lookupA_append_left {α : Type} (k : String) (xs ys : List (String × α))
    (v : α) (h : lookupA k xs = some v) : lookupA k (xs ++ ys) = some v := by
  induction xs with
  | nil => simp [lookupA] at h
  | cons kv rest ih =>
    obtain ⟨k', v'⟩ := kv
    simp only [lookupA, List.cons_append] at h ⊢
    by_cases he : k' = k
    · rwa [if_pos he] at h ⊢
    · rw [if_neg he] at h ⊢
      exact ih h

theorem mergeEntries_lookup : ∀ (a b merged : List (String × TreeNode))
    (k : String) (va vb : TreeNode),
    lookupA k a = some va → lookupA k b = some vb →
    mergeEntries a b = .ok merged →
    ∃ m, mergeTree va vb = .ok m ∧ lookupA k merged = some m := by
  intro a
  induction a with
  | nil =>
    intro b merged k va vb ha _ _
    simp [lookupA] at ha
  | cons kv rest ih =>
    intro b merged k va vb ha hb hok
    obtain ⟨k', va'⟩ := kv
    by_cases he : k' = k
    · subst he
      rw [lookupA, if_pos rfl, Option.some.injEq] at ha
      subst ha
      simp only [mergeEntries, hb] at hok
      cases hm : mergeTree va' vb with
      | error e =>
        rw [hm] at hok
        exact absurd hok (by simp)
      | ok m =>
        rw [hm] at hok
        cases ht : mergeEntries rest b with
        | error e =>
          rw [ht] at hok
          exact absurd hok (by simp)
        | ok tail =>
          rw [ht, Except.ok.injEq] at hok
          refine ⟨m, rfl, ?_⟩
          rw [← hok, lookupA, if_pos rfl]
    · rw [lookupA, if_neg he] at ha
      simp only [mergeEntries] at hok
      cases hhead : (match lookupA k' b with
          | some vb => mergeTree va' vb
          | none => .ok va' : Except String TreeNode) with
      | error e =>
        rw [hhead] at hok
        exact absurd hok (by simp)
      | ok m =>
        rw [hhead] at hok
        cases ht : mergeEntries rest b with
        | error e =>
          rw [ht] at hok
          exact absurd hok (by simp)
        | ok tail =>
          rw [ht, Except.ok.injEq] at hok
          obtain ⟨m', hm', hl⟩ := ih b tail k va vb ha hb ht
          refine ⟨m', hm', ?_⟩
          rw [← hok, lookupA, if_neg he]
          exact hl

/-- Claim C1 (confirmed): when both the earlier and the later record hold an
array at the same key, the merged tree holds exactly the later record's
array at that key — wholesale replacement, never an element-wise
combination. -/
theorem merge_array_replaces (a b : List (String × TreeNode)) (k : String)
    (arr1 arr2 : List TreeNode) (out : TreeNode)
    (ha : lookupA k a = some (.array arr1))
    (hb : lookupA k b = some (.array arr2))
    (hok : mergeTree (.map a) (.map b) = .ok out) :
    ∃ entries, out = .map entries ∧ lookupA k entries = some (.array arr2) := by
  simp only [mergeTree] at hok
  cases hme : mergeEntries a b with
  | error e =>
    rw [hme] at hok
    exact absurd hok (by simp)
  | ok merged =>
    rw [hme, Except.ok.injEq] at hok
    obtain ⟨m, hm, hl⟩ := mergeEntries_lookup a b merged k _ _ ha hb hme
    simp only [mergeTree, Except.ok.injEq] at hm
    refine ⟨merged ++ b.filter (fun kv => (lookupA kv.1 a).isNone), hok.symm, ?_⟩
    rw [← hm] at hl
    exact lookupA_append_left k _ _ _ hl

/-- Witness for `merge_array_replaces`: the spec's own example — merging
`{a: [1,2,3]}` then `{a: [9]}` yields `{a: [9]}`. -/
theorem merge_array_replaces_witness :
    mergeTree (.map [("a", .array [.scalar "1", .scalar "2", .scalar "3"])])
        (.map [("a", .array [.scalar "9"])])
      = .ok (.map [("a", .array [.scalar "9"])])
    ∧ ∃ entries, (TreeNode.map [("a", TreeNode.array [.scalar "9"])]) = .map entries
        ∧ lookupA "a" entries = some (.array [.scalar "9"]) :=
  ⟨by rfl,
   merge_array_replaces [("a", .array [.scalar "1", .scalar "2", .scalar "3"])]
     [("a", .array [.scalar "9"])] "a" _ _ _ (by rfl) (by rfl) (by rfl)⟩

/-- No branch of Marshal writes to the Config: the state after the call is
the state before it. -/
theorem marshal_state (collab : MarshalCollab) (c : Config)
    (opts : List MarshalOption) : (Config.Marshal collab c opts).2 = c := by
  unfold Config.Marshal
  repeat' first
    | rfl
    | split

/-- Claim C8: a Marshal, Unmarshal or Compile call that returns an error —
including the not-yet-compiled case — leaves the Config, in particular its
compiled tree, unchanged.  In the Go methods no branch of Marshal or
Unmarshal assigns to any Config field, and the spec-modelled Compile
installs the recomputed tree only when the pipeline succeeds. -/
theorem marshal_error_keeps_tree (collab : MarshalCollab)
    (ucollab : UnmarshalCollab) (c : Config) (opts : List MarshalOption)
    (key : String) (uopts : List UnmarshalOption) (now : Nat) :
    ((Config.Marshal collab c opts).1.isOk = false →
      (Config.Marshal collab c opts).2.tree = c.tree
      ∧ (Config.Marshal collab c opts).2 = c)
    ∧ ((Config.Unmarshal ucollab c key uopts).1.isOk = false →
      (Config.Unmarshal ucollab c key uopts).2.tree = c.tree
      ∧ (Config.Unmarshal ucollab c key uopts).2 = c)
    ∧ ((Config.Compile c now).1.isOk = false →
      (Config.Compile c now).2.tree = c.tree ∧ (Config.Compile c now).2 = c) := by
  refine ⟨?_, ?_, ?_⟩
  · intro _
    have hs := marshal_state collab c opts
    exact ⟨by rw [hs], hs⟩
  · intro _
    have hs : (Config.Unmarshal ucollab c key uopts).2 = c := by
      unfold Config.Unmarshal
      split <;> rfl
    exact ⟨by rw [hs], hs⟩
  · intro h
    cases hc : c.compileInternal false with
    | error e => constructor <;> simp [Config.Compile, hc]
    | ok t =>
      exfalso
      simp [Config.Compile, hc, Except.isOk, Except.toBool] at h

/-- Claim C8 witness: on the never-compiled Config with the failing
pipeline, Marshal and Unmarshal fail with the not-compiled error and
Compile fails with the pipeline error; on its compiled variant, Unmarshal
fails at the decode stage.  In every case the stored tree is
untouched. -/
theorem marshal_error_keeps_tree_witness :
    (Config.Marshal collab0 c0 []).1.isOk = false
    ∧ (Config.Marshal collab0 c0 []).2.tree = c0.tree
    ∧ (Config.Unmarshal ucollab0 c0 "a" []).1.isOk = false
    ∧ (Config.Unmarshal ucollab0 c0 "a" []).2.tree = c0.tree
    ∧ (Config.Unmarshal ucollab0 c1 "" []).1.isOk = false
    ∧ (Config.Unmarshal ucollab0 c1 "" []).2.tree = c1.tree
    ∧ (Config.Compile c0 1).1.isOk = false
    ∧ (Config.Compile c0 1).2.tree = c0.tree :=
  ⟨rfl, ((marshal_error_keeps_tree collab0 ucollab0 c0 [] "a" [] 1).1 rfl).1,
   rfl, ((marshal_error_keeps_tree collab0 ucollab0 c0 [] "a" [] 1).2.1 rfl).1,
   rfl, ((marshal_error_keeps_tree collab0 ucollab0 c1 [] "" [] 1).2.1 rfl).1,
   rfl, ((marshal_error_keeps_tree collab0 ucollab0 c0 [] "a" [] 1).2.2 rfl).1⟩

/-- Claim C9: the attempt order plain → single-quoted → whitespace-only →
block forms → quoted-default is the code's, but the final default attempt
does not always succeed.  At maximum line length 1 — reachable, since with
a configured MaxLineLength of 1 the renderer's budget for an unindented
sequence entry is exactly 1 — the two-character value of a double quote and
the letter a makes the first seven formatters decline, and
`tryQuotedDefault` falls into `chunkString`, where `findBestSplitPoint`
returns 0 and the loop never advances: the fuelled embedding reports
divergence, and no amount of fuel yields a result, so formatting produces
no output at all. -/
theorem formatValue_default_attempt_diverges :
    formatValue (some qa) 1 = .diverge
    ∧ ∀ fuel lines, chunkLoop 1 fuel (quoteAndEscapeValue qa).toList lines = none := by
  constructor
  · rfl
  · intro fuel
    induction fuel with
    | zero => intro lines; rfl
    | succ fuel ih =>
      intro lines
      exact ih (((quoteAndEscapeValue qa).toList.take 0 ++ [Char.ofNat 92]) :: lines)

end Goschtalt
